import Mathlib

/-!
The growable byte Buffer of src/poolBuffer.go.

A shallow embedding of `Buffer` and its methods `Len`, `ReadData`, `WriteData`
and `Write`, followed by the properties proved about them.

Modelling conventions.

* A Go slice is a window on a backing array. Of that array only the part from
  the slice's first element up to its capacity can ever be reached through
  the slice, so a `byteSlice` is the pair of the bytes inside the length and
  the bytes between length and capacity. `len <= cap` holds by construction,
  as it does for every Go slice value.
* `io.Reader` and `io.Writer` are external collaborators with hidden state.
  They are state machines over an arbitrary state type, and each method that
  calls one takes the collaborator's state and returns the new one.
* `WriteData` hands its sink the slice `b.ByteBuffer` itself, not a copy, and
  the sink may be, or hold, the Buffer. A call of the sink's `Write` therefore
  also returns the Buffer as the call left it.
* The `for` loop of `ReadData` has no bound of its own. Its body is one
  function, `ReadData.body`, and `ReadData.loop` iterates it at most `fuel`
  times; one unit of fuel is one call of `r.Read`.
* Sizes and positions are unbounded integers and `make` always succeeds.
  A slice that exists is smaller than 2^62 bytes, so no `int64` value the
  code computes from lengths wraps around before an allocation fails, and
  allocation failure ends the program.
* The struct declares its only field as `Buffer`; `Len` and the first line of
  `ReadData` read it under that name, every other line calls it
  `ByteBuffer`. There is one field, and the embedding calls it `ByteBuffer`.
-/

namespace poolBuffer

/-- Go `error` values other than nil. `io.EOF` is one distinguished value, every
other error is told apart by a tag. A nil error is `Option.none`. -/
inductive error where
  | EOF
  | failure (tag : Nat)
  deriving DecidableEq, Repr

/-- The type `byteSlice` (`[]byte`): `elems` are the bytes `s[0:len(s)]`, `spare`
the bytes of the backing array between `len(s)` and `cap(s)`. -/
structure byteSlice where
  elems : List UInt8
  spare : List UInt8
  deriving DecidableEq, Repr

/-- Go builtin `len` on a byte slice. -/
def len (s : byteSlice) : Nat := s.elems.length

/-- Go builtin `cap` on a byte slice. -/
def cap (s : byteSlice) : Nat := s.elems.length + s.spare.length

/-- Go builtin `make([]byte, n)`: `n` zero bytes, length and capacity `n`. -/
def make (n : Nat) : List UInt8 := List.replicate n 0

/-- Go builtin `copy(dst, src)` on full slices: the first `min (len dst) (len src)`
bytes of `dst` are replaced by those of `src`. -/
def copy (dst src : List UInt8) : List UInt8 :=
  src.take dst.length ++ dst.drop src.length

/-- Go builtin `append(s, p...)`. When the spare capacity holds `p` the bytes go
into the backing array in place; otherwise a new array is allocated whose
capacity exceeds the needed length by `slack oldCap neededLen` zero bytes (the
runtime's growth policy, which the language leaves open). -/
def append (slack : Nat → Nat → Nat) (s : byteSlice) (p : List UInt8) : byteSlice :=
  if p.length ≤ s.spare.length then
    ⟨s.elems ++ p, s.spare.drop p.length⟩
  else
    ⟨s.elems ++ p, make (slack (cap s) (len s + p.length))⟩

/-- The struct `Buffer`, one field of type `byteSlice`. -/
structure Buffer where
  ByteBuffer : byteSlice
  deriving DecidableEq, Repr

/-- Method `Len`: `return len(b.Buffer)`. -/
def Buffer.Len (b : Buffer) : Nat := len b.ByteBuffer

/-! ## External collaborators -/

/-- What one call `r.Read(p)` does: `out` are the bytes the reader stored into `p`
from index 0 on, `n` and `err` the two values it returned, `next` the reader's
state afterwards. -/
structure ReadResult (σ : Type) where
  out : List UInt8
  n : Int
  err : Option error
  next : σ

/-- An `io.Reader` with hidden state of type `σ`. `Read` sees the region it is
given (its length is `len(p)`). -/
structure Reader (σ : Type) where
  Read : σ → List UInt8 → ReadResult σ

/-- The region `p` after a reader stored `out` into it from index 0: a reader
cannot store outside the slice it was handed, so the length stays `len(p)`. -/
def storeInto (p out : List UInt8) : List UInt8 :=
  (out ++ p.drop out.length).take p.length

/-- What one call `w.Write(p)` returned, the writer's state afterwards, and the
Buffer whose slice was handed over as the call left it. -/
structure WriteResult (τ : Type) where
  n : Int
  err : Option error
  next : τ
  buf : Buffer

/-- An `io.Writer` with hidden state of type `τ`. `Write` receives the slice `p`
and can reach the Buffer `b` that the slice belongs to: through the slice,
which shares the Buffer's backing array, or because the writer is or holds
the Buffer. -/
structure Writer (τ : Type) where
  Write : τ → byteSlice → Buffer → WriteResult τ

/-! ## ReadData -/

/-- The local variables of `ReadData` that live across loop iterations, and the
reader's state. `initBuffer` always has `len = cap`, so it is one list. -/
structure ReadState (σ : Type) where
  initBuffer : List UInt8
  bufferMaxCap : Nat
  bufferCurrentLen : Int
  src : σ

/-- How one iteration of the loop ends. -/
inductive Step (σ : Type) where
  | next (st : ReadState σ)
  | ret (b : Buffer) (n : Int) (err : Option error) (src : σ)
  | panic

/-- How a call of `ReadData` ends within the fuel it was given. -/
inductive Outcome (σ : Type) where
  | ret (b : Buffer) (n : Int) (err : Option error) (src : σ)
  | panic
  | outOfFuel

/-- Lines 61-66: when the write position has reached the capacity, the capacity
doubles and the bytes move to a new array of that size. -/
def ReadData.grow {σ : Type} (st : ReadState σ) : ReadState σ :=
  if st.bufferCurrentLen = (st.bufferMaxCap : Int) then
    ⟨copy (make (st.bufferMaxCap * 2)) st.initBuffer, st.bufferMaxCap * 2,
      st.bufferCurrentLen, st.src⟩
  else
    st

/-- One iteration of the `for` loop of `ReadData` (lines 58-91). A slice
expression whose bounds are out of range panics. -/
def ReadData.body {σ : Type} (r : Reader σ) (bufferInitLen : Int) (st : ReadState σ) :
    Step σ :=
  let st := ReadData.grow st
  -- s := initBuffer[bufferCurrentLen:]
  if 0 ≤ st.bufferCurrentLen ∧ st.bufferCurrentLen ≤ (st.initBuffer.length : Int) then
    let s := st.initBuffer.drop st.bufferCurrentLen.toNat
    -- byteReadCount, err := r.Read(s)
    let res := r.Read st.src s
    let initBuffer := st.initBuffer.take st.bufferCurrentLen.toNat ++ storeInto s res.out
    -- bufferCurrentLen += int64(byteReadCount)
    let bufferCurrentLen := st.bufferCurrentLen + res.n
    match res.err with
    | none => Step.next ⟨initBuffer, st.bufferMaxCap, bufferCurrentLen, res.next⟩
    | some err =>
      -- b.ByteBuffer = initBuffer[:bufferCurrentLen]
      if 0 ≤ bufferCurrentLen ∧ bufferCurrentLen ≤ (initBuffer.length : Int) then
        let b : Buffer :=
          ⟨⟨initBuffer.take bufferCurrentLen.toNat, initBuffer.drop bufferCurrentLen.toNat⟩⟩
        -- bufferCurrentLen -= bufferInitLen
        let bufferCurrentLen := bufferCurrentLen - bufferInitLen
        if err = error.EOF then
          Step.ret b bufferCurrentLen none res.next
        else
          Step.ret b bufferCurrentLen (some err) res.next
      else
        Step.panic
  else
    Step.panic

/-- The `for` loop of `ReadData`, cut off after `fuel` iterations. -/
def ReadData.loop {σ : Type} (r : Reader σ) (bufferInitLen : Int) :
    Nat → ReadState σ → Outcome σ
  | 0, _ => Outcome.outOfFuel
  | fuel + 1, st =>
    match ReadData.body r bufferInitLen st with
    | Step.next st' => ReadData.loop r bufferInitLen fuel st'
    | Step.ret b n err src => Outcome.ret b n err src
    | Step.panic => Outcome.panic

/-- The state in which `ReadData` enters its loop (lines 37-56). -/
def ReadData.enter {σ : Type} (b : Buffer) (src : σ) : ReadState σ :=
  let initBuffer := b.ByteBuffer
  let bufferInitLen : Int := len initBuffer
  let bufferMaxCap := cap initBuffer
  if bufferMaxCap = 0 then
    ⟨make 64, 64, bufferInitLen, src⟩
  else
    -- initBuffer = initBuffer[:bufferMaxCap]
    ⟨initBuffer.elems ++ initBuffer.spare, bufferMaxCap, bufferInitLen, src⟩

/-- Method `ReadData`, run for at most `fuel` calls of `r.Read`. -/
def Buffer.ReadData {σ : Type} (r : Reader σ) (fuel : Nat) (b : Buffer) (src : σ) :
    Outcome σ :=
  ReadData.loop r (len b.ByteBuffer) fuel (ReadData.enter b src)

/-! ## WriteData and Write -/

/-- Method `WriteData`: one call `w.Write(b.ByteBuffer)`, whose two results are
returned; `WriteData` itself does not assign to the buffer. Returns the buffer
as the call left it, the two results and the writer's new state. -/
def Buffer.WriteData {τ : Type} (w : Writer τ) (b : Buffer) (snk : τ) :
    Buffer × Int × Option error × τ :=
  let res := w.Write snk b.ByteBuffer b
  (res.buf, res.n, res.err, res.next)

/-- Method `Write`: `b.ByteBuffer = append(b.ByteBuffer, p...)`, then
`return len(p), nil`. -/
def Buffer.Write (slack : Nat → Nat → Nat) (b : Buffer) (p : List UInt8) :
    Buffer × Int × Option error :=
  (⟨append slack b.ByteBuffer p⟩, (p.length : Int), none)

/-! ## Observing the collaborators

The properties below speak about what the source delivered and what the sink
received. Both are observed by wrapping the collaborator in a log; the wrapper
is itself a `Reader` (or `Writer`) and leaves every result as it was. -/

/-- One call of `r.Read` as seen from outside: the length of the region offered,
the region's bytes after the call and the two values returned. -/
structure Call where
  offered : Nat
  bytes : List UInt8
  n : Int
  err : Option error
  deriving DecidableEq, Repr

/-- The bytes a call delivered: the first `n` bytes of the region. -/
def Call.chunk (c : Call) : List UInt8 := c.bytes.take c.n.toNat

/-- All bytes delivered by a sequence of calls, in order. -/
def delivered (log : List Call) : List UInt8 := (log.map Call.chunk).flatten

/-- The reader `r` with a log of its calls appended to its state. -/
def Reader.recorded {σ : Type} (r : Reader σ) : Reader (σ × List Call) where
  Read s p :=
    let res := r.Read s.1 p
    ⟨res.out, res.n, res.err,
      (res.next, s.2 ++ [⟨p.length, storeInto p res.out, res.n, res.err⟩])⟩

/-- The reader contract of `io.Reader`: every call returns a count between 0 and
the length of the region it was offered. -/
def Reader.Contract {σ : Type} (r : Reader σ) : Prop :=
  ∀ s p, 0 ≤ (r.Read s p).n ∧ (r.Read s p).n ≤ (p.length : Int)

/-- A source that reports a non-nil error after finitely many calls: `rank`
bounds the number of calls on non-empty regions that can still return a nil
error. -/
def Reader.Exhausts {σ : Type} (r : Reader σ) (rank : σ → Nat) : Prop :=
  ∀ s p, p ≠ [] → (r.Read s p).err = none → rank (r.Read s p).next < rank s

/-- A source that hands out the byte stream `view s` held in its state `s`: the
bytes a call delivers, followed by the stream still to come, are the stream
as it was before the call, whatever region the call was offered; once the
source reports a non-nil error nothing is left to come. -/
def Reader.Delivers {σ : Type} (r : Reader σ) (view : σ → List UInt8) : Prop :=
  ∀ s p,
    (storeInto p (r.Read s p).out).take (r.Read s p).n.toNat ++ view (r.Read s p).next
      = view s ∧
    ((r.Read s p).err ≠ none → view (r.Read s p).next = [])

/-- A sink that logs the bytes of every slice it is handed, answers with `reply`
and leaves the Buffer alone. -/
def recorder (reply : List UInt8 → Int × Option error) : Writer (List (List UInt8)) where
  Write log p b := ⟨(reply p.elems).1, (reply p.elems).2, log ++ [p.elems], b⟩

/-- The Buffer used as the sink of its own `WriteData`: `*Buffer` has the method
`Write` and so is an `io.Writer`; the call `w.Write(b.ByteBuffer)` is then
`b.Write(b.ByteBuffer)`. -/
def selfSink (slack : Nat → Nat → Nat) : Writer Unit where
  Write _ p b := ⟨(b.Write slack p.elems).2.1, (b.Write slack p.elems).2.2, (),
    (b.Write slack p.elems).1⟩

/-- A sink that leaves the Buffer alone: it does not write into the slice it is
handed and is not, and does not hold, the Buffer. -/
def Writer.Detached {τ : Type} (w : Writer τ) : Prop :=
  ∀ s p b, (w.Write s p b).buf = b

/-- A source over a byte stream: each call delivers at most `limit + 1` bytes (and
no more than fit the region), and reports `final` once the stream is empty;
when `eager` is set the error comes together with the last bytes. -/
def streamReader (limit : Nat) (eager : Bool) (final : error) : Reader (List UInt8) where
  Read s p :=
    let k := min (min (limit + 1) p.length) s.length
    if s.drop k = [] ∧ (eager = true ∨ s = []) then
      ⟨s.take k, (k : Int), some final, s.drop k⟩
    else
      ⟨s.take k, (k : Int), none, s.drop k⟩

/-! ## Notions used in the statements -/

/-- The sum of the counts returned by a sequence of calls. -/
def total (log : List Call) : Int := (log.map Call.n).sum

/-- The capacity `ReadData` starts from: the buffer's own, or 64 when it has
none. -/
def startCap (b : Buffer) : Nat :=
  if cap b.ByteBuffer = 0 then 64 else cap b.ByteBuffer

/-- The loop invariant of `ReadData`: `initBuffer` is a full slice of
`bufferMaxCap > 0` bytes and the write position lies within it. -/
def ReadData.InRange {σ : Type} (st : ReadState σ) : Prop :=
  st.initBuffer.length = st.bufferMaxCap ∧ 0 < st.bufferMaxCap ∧
    0 ≤ st.bufferCurrentLen ∧ st.bufferCurrentLen ≤ (st.bufferMaxCap : Int)

/-- An outcome of a run on a recorded reader with the log taken off. -/
def Outcome.forget {σ : Type} : Outcome (σ × List Call) → Outcome σ
  | Outcome.ret b n err src => Outcome.ret b n err src.1
  | Outcome.panic => Outcome.panic
  | Outcome.outOfFuel => Outcome.outOfFuel

/-- The region `initBuffer[bufferCurrentLen:]` offered to `r.Read` in the iteration
that starts in state `st`. -/
def ReadData.region {σ : Type} (st : ReadState σ) : List UInt8 :=
  (ReadData.grow st).initBuffer.drop st.bufferCurrentLen.toNat

/-- The result of the call `r.Read(s)` made in the iteration that starts in
state `st`. -/
def ReadData.answer {σ : Type} (r : Reader σ) (st : ReadState σ) : ReadResult σ :=
  r.Read st.src (ReadData.region st)

/-- The bytes of `initBuffer` after the call `r.Read(s)` of that iteration. -/
def ReadData.after {σ : Type} (r : Reader σ) (st : ReadState σ) : List UInt8 :=
  (ReadData.grow st).initBuffer.take st.bufferCurrentLen.toNat
    ++ storeInto (ReadData.region st) (ReadData.answer r st).out

/-- The state in which the next iteration starts when the call returned a nil
error. -/
def ReadData.advance {σ : Type} (r : Reader σ) (st : ReadState σ) : ReadState σ :=
  ⟨ReadData.after r st, (ReadData.grow st).bufferMaxCap,
    st.bufferCurrentLen + (ReadData.answer r st).n, (ReadData.answer r st).next⟩

/-- The call made in the iteration that starts in state `st`, as it is logged. -/
def ReadData.call {σ : Type} (r : Reader σ) (st : ReadState σ) : Call :=
  ⟨(ReadData.region st).length,
    storeInto (ReadData.region st) (ReadData.answer r st).out,
    (ReadData.answer r st).n, (ReadData.answer r st).err⟩

/-- What `ReadData` returns as its error for the non-nil error `err` of the
source: nil for `io.EOF`, the error itself otherwise. -/
def reported (err : error) : Option error :=
  if err = error.EOF then none else some err

/-- What a run of the loop that starts in state `st` and returns `(n, e)` with
buffer `b` has done, in terms of the calls `calls` it made to the source. -/
structure ReadData.RunFacts {σ : Type} (st : ReadState σ) (bufferInitLen : Int)
    (b : Buffer) (n : Int) (e : Option error) (calls : List Call) : Prop where
  content : b.ByteBuffer.elems
    = st.initBuffer.take st.bufferCurrentLen.toNat ++ delivered calls
  length : (len b.ByteBuffer : Int) = st.bufferCurrentLen + total calls
  count : n = st.bufferCurrentLen + total calls - bufferInitLen
  capacity : ∃ k, cap b.ByteBuffer = st.bufferMaxCap * 2 ^ k ∧
    (k = 0 ∨ cap b.ByteBuffer ≤ 2 * len b.ByteBuffer)
  shape : ∃ front last err, calls = front ++ [last] ∧ (∀ c ∈ front, c.err = none) ∧
    last.err = some err ∧ e = reported err
  conform : ∀ c ∈ calls, 0 < c.offered ∧ 0 ≤ c.n ∧ c.n ≤ (c.offered : Int) ∧
    c.bytes.length = c.offered
  first : ∃ c rest, calls = c :: rest ∧ c.offered = (ReadData.region st).length

/-- A loop state of a run on a recorded reader with the log taken off. -/
def ReadState.forget {σ : Type} (st : ReadState (σ × List Call)) : ReadState σ :=
  ⟨st.initBuffer, st.bufferMaxCap, st.bufferCurrentLen, st.src.1⟩

/-- The end of an iteration on a recorded reader with the log taken off. -/
def Step.forget {σ : Type} : Step (σ × List Call) → Step σ
  | Step.next st => Step.next st.forget
  | Step.ret b n err src => Step.ret b n err src.1
  | Step.panic => Step.panic

/-! ## Reset and the Pool

Of the Pool the source holds the struct declaration only; `Reset`, `Get`, `Put`
and the calibration pass are described by the specification and modelled from
it here. The model is sequential: one operation runs at a time, so the gate
`calibrating` is free whenever an operation starts. The policy the
specification leaves to configuration (number of buckets, bucket boundaries,
trigger threshold, the two percentiles) is a parameter. Counters and sizes are
natural numbers; the histogram is zeroed every `threshold` calls, far below
the range of `uint64`. -/

/-- Modelled from the spec: method `Reset` of `Buffer`, which the source does not
define. It "sets logical length to 0 without releasing capacity", the slice
expression `b.ByteBuffer[:0]`: no byte is inside the length, all bytes of the
backing array stay within the capacity. -/
def Buffer.Reset (b : Buffer) : Buffer :=
  ⟨⟨[], b.ByteBuffer.elems ++ b.ByteBuffer.spare⟩⟩

/-- Modelled from the spec: the configuration of a Pool, with the constant `steps`
that the source uses and does not define. `boundary i` is the largest length
that falls into bucket `i`; `threshold` is the number of `Put` calls after
which calibration is triggered; `defaultPct` and `maxPct` are the two target
percentiles, in percent. -/
structure Config where
  steps : Nat
  boundary : Nat → Nat
  threshold : Nat
  defaultPct : Nat
  maxPct : Nat

/-- The struct `Pool` (lines 103-111). `calls` is the array `[steps]uint64`, and
`SyncPool`, a `sync.Pool`, is the list of idle Buffers it holds. -/
structure Pool where
  calls : List Nat
  calibrating : Nat
  defaultSize : Nat
  maxSize : Nat
  SyncPool : List Buffer
  deriving DecidableEq, Repr

/-- The zero value of `Pool` for `steps` buckets, the state of a Pool that was
declared and not yet used. -/
def Pool.zero (steps : Nat) : Pool :=
  ⟨List.replicate steps 0, 0, 0, 0, []⟩

/-- The first index `i` among `start, start + 1, ..., start + n - 1` for which `p i`
holds, and `last` when there is none. -/
def firstFrom (p : Nat → Bool) : Nat → Nat → Nat → Nat
  | 0, _, last => last
  | n + 1, start, last => if p start then start else firstFrom p n (start + 1) last

/-- Modelled from the spec: the histogram bucket of a Buffer of length `n`. The
buckets below the topmost one are bounded by `boundary`; "the topmost bucket
catches everything" larger. -/
def bucketIndex (cfg : Config) (n : Nat) : Nat :=
  firstFrom (fun i => decide (n ≤ cfg.boundary i)) (cfg.steps - 1) 0 (cfg.steps - 1)

/-- Modelled from the spec: `callsSinceCalibration`, the "count of returns since
the histogram was last reset", which is the sum of the histogram's counters. -/
def Pool.callsSinceCalibration (p : Pool) : Nat := p.calls.sum

/-- The cumulative count of the buckets `0, ..., i`. -/
def cumulative (calls : List Nat) (i : Nat) : Nat := (calls.take (i + 1)).sum

/-- Modelled from the spec: the smallest bucket "such that the cumulative count of
smaller-or-equal buckets crosses a target fraction" of all counts, here `pct`
percent; the topmost bucket when no bucket does. -/
def coverIndex (calls : List Nat) (pct : Nat) : Nat :=
  firstFrom (fun i => decide (pct * calls.sum ≤ 100 * cumulative calls i))
    calls.length 0 (calls.length - 1)

/-- Modelled from the spec: the calibration pass. It is skipped while the gate is
taken and is a no-op on an empty histogram. Otherwise the boundary of the
bucket that covers `defaultPct` percent becomes `defaultSize`, the boundary of
the bucket that covers `maxPct` percent becomes `maxSize`, the counters are
zeroed and the gate is released. -/
def Pool.calibrate (cfg : Config) (p : Pool) : Pool :=
  if p.calibrating ≠ 0 then p
  else if p.calls.sum = 0 then p
  else
    ⟨List.replicate p.calls.length 0, 0,
      cfg.boundary (coverIndex p.calls cfg.defaultPct),
      cfg.boundary (coverIndex p.calls cfg.maxPct), p.SyncPool⟩

/-- Modelled from the spec: the first half of `Put`. The length of the Buffer is
recorded in its bucket (which increments `callsSinceCalibration`), and when
the count of calls reaches the threshold calibration is triggered. -/
def Pool.record (cfg : Config) (p : Pool) (b : Buffer) : Pool :=
  let i := bucketIndex cfg b.Len
  let q : Pool :=
    ⟨p.calls.set i (p.calls.getD i 0 + 1), p.calibrating, p.defaultSize, p.maxSize,
      p.SyncPool⟩
  if cfg.threshold ≤ q.callsSinceCalibration then q.calibrate cfg else q

/-- Modelled from the spec: method `Put` of `Pool`. "After recording, if the
buffer's capacity is <= maxSize", the Buffer is reset and returned to the
cache; "otherwise the buffer is discarded". -/
def Pool.Put (cfg : Config) (p : Pool) (b : Buffer) : Pool :=
  let q := p.record cfg b
  if cap b.ByteBuffer ≤ q.maxSize then
    ⟨q.calls, q.calibrating, q.defaultSize, q.maxSize, b.Reset :: q.SyncPool⟩
  else
    q

/-- Modelled from the spec: method `Get` of `Pool`. It takes an idle Buffer from the
cache; "if none is idle, constructs a new Buffer whose capacity is
defaultSize". Returns the Buffer and the Pool afterwards. -/
def Pool.Get (p : Pool) : Buffer × Pool :=
  match p.SyncPool with
  | [] => (⟨⟨[], make p.defaultSize⟩⟩, p)
  | b :: rest => (b, ⟨p.calls, p.calibrating, p.defaultSize, p.maxSize, rest⟩)

/-- The states a Pool can reach from state `p0` by calls of `Put` and `Get`. -/
inductive Pool.Reachable (cfg : Config) (p0 : Pool) : Pool → Prop where
  | start : Pool.Reachable cfg p0 p0
  | put (p : Pool) (b : Buffer) :
      Pool.Reachable cfg p0 p → Pool.Reachable cfg p0 (p.Put cfg b)
  | get (p : Pool) : Pool.Reachable cfg p0 p → Pool.Reachable cfg p0 p.Get.2

/-- Modelled from the spec: an operation issued on the Pool. A Buffer is an object
with an identity, its address `id`; `Put` returns the object `id`, whose state
is `b`, and `Get` asks for one. -/
inductive Op where
  | put (id : Nat) (b : Buffer)
  | get

/-- Modelled from the spec: the cache holds Buffer objects, not their values. A
tracked Pool is a Pool together with the identities of the Buffers that lie in
its cache, in the order of the cache. -/
structure Tracked where
  pool : Pool
  ids : List Nat

/-- Modelled from the spec: the call `Put` on a tracked Pool. The object is entered
in the cache exactly when `Put` retains it, on the comparison `Put` makes. -/
def Tracked.Put (cfg : Config) (t : Tracked) (id : Nat) (b : Buffer) : Tracked :=
  ⟨t.pool.Put cfg b,
    if cap b.ByteBuffer ≤ (t.pool.record cfg b).maxSize then id :: t.ids else t.ids⟩

/-- Modelled from the spec: the call `Get` on a tracked Pool. It returns the
identity of the Buffer handed out, with `none` for a Buffer that `Get` has just
constructed, and the Pool afterwards. -/
def Tracked.Get (t : Tracked) : Option Nat × Tracked :=
  (t.ids.head?, ⟨t.pool.Get.2, t.ids.tail⟩)

/-- The identities handed out by the `Get` calls of a sequence of operations, in
order. -/
def Tracked.run (cfg : Config) : Tracked → List Op → List (Option Nat)
  | _, [] => []
  | t, Op.put id b :: ops => Tracked.run cfg (t.Put cfg id b) ops
  | t, Op.get :: ops => t.Get.1 :: Tracked.run cfg t.Get.2 ops

/-- A configuration used in examples: three buckets bounded by 64, 128 and 256
bytes, calibration every third `Put`, percentiles 50 and 95. -/
def demoConfig : Config := ⟨3, fun i => 64 * 2 ^ i, 3, 50, 95⟩

/-- A Buffer used in examples: 3 bytes in a capacity of 64. -/
def demoSmall : Buffer := ⟨⟨[1, 2, 3], make 61⟩⟩

/-- A Buffer used in examples: 200 bytes in a capacity of 256. -/
def demoBig : Buffer := ⟨⟨List.replicate 200 5, make 56⟩⟩

/-- A Pool state used in examples: the zero value after three `Put` of the small
Buffer (the third one calibrates both sizes to 64) and two `Put` of the big
one (both discarded). -/
def demoPool : Pool :=
  [demoSmall, demoSmall, demoSmall, demoBig, demoBig].foldl (Pool.Put demoConfig)
    (Pool.zero 3)

/-! ## Lists, regions and the growth step -/

theorem storeInto_length (p out : List UInt8) : (storeInto p out).length = p.length := by
  simp only [storeInto, List.length_take, List.length_append, List.length_drop]
  omega

theorem make_length (n : Nat) : (make n).length = n := by
  simp [make]

theorem copy_make_double (src : List UInt8) :
    copy (make (src.length * 2)) src = src ++ make src.length := by
  have h : src.length * 2 - src.length = src.length := by omega
  have h2 : src.length ≤ src.length * 2 := by omega
  simp [copy, make, List.take_of_length_le, h, h2]

theorem grow_spec {σ : Type} (st : ReadState σ) (h : ReadData.InRange st) :
    (ReadData.grow st).initBuffer.length = (ReadData.grow st).bufferMaxCap ∧
    (ReadData.grow st).bufferCurrentLen = st.bufferCurrentLen ∧
    (ReadData.grow st).src = st.src ∧
    st.bufferCurrentLen < ((ReadData.grow st).bufferMaxCap : Int) ∧
    (ReadData.grow st).initBuffer.take st.bufferCurrentLen.toNat
      = st.initBuffer.take st.bufferCurrentLen.toNat ∧
    ((ReadData.grow st).bufferMaxCap = st.bufferMaxCap ∨
      ((ReadData.grow st).bufferMaxCap = st.bufferMaxCap * 2 ∧
        st.bufferCurrentLen = (st.bufferMaxCap : Int))) := by
  obtain ⟨hlen, hpos, h0, hle⟩ := h
  unfold ReadData.grow
  split_ifs with heq
  · have hc := copy_make_double st.initBuffer
    rw [hlen] at hc
    refine ⟨?_, rfl, rfl, ?_, ?_, Or.inr ⟨rfl, heq⟩⟩
    · simp only [hc, List.length_append, make_length, hlen]; omega
    · simp only; omega
    · simp only [hc]
      apply List.take_append_of_le_length
      rw [heq, Int.toNat_ofNat, hlen]
  · refine ⟨hlen, rfl, rfl, ?_, rfl, Or.inl rfl⟩
    omega

theorem region_length {σ : Type} (st : ReadState σ) (h : ReadData.InRange st) :
    ((ReadData.region st).length : Int)
      = ((ReadData.grow st).bufferMaxCap : Int) - st.bufferCurrentLen ∧
    0 < (ReadData.region st).length := by
  obtain ⟨hg, _, _, hlt, _, _⟩ := grow_spec st h
  obtain ⟨_, _, h0, _⟩ := h
  have hl : (ReadData.region st).length
      = (ReadData.grow st).bufferMaxCap - st.bufferCurrentLen.toNat := by
    simp [ReadData.region, hg]
  omega

theorem after_length {σ : Type} (r : Reader σ) (st : ReadState σ)
    (h : ReadData.InRange st) :
    (ReadData.after r st).length = (ReadData.grow st).bufferMaxCap := by
  obtain ⟨hg, _, _, hlt, _, _⟩ := grow_spec st h
  obtain ⟨hr, _⟩ := region_length st h
  obtain ⟨_, _, h0, _⟩ := h
  simp only [ReadData.after, List.length_append, List.length_take, storeInto_length, hg]
  omega

theorem after_take {σ : Type} (r : Reader σ) (st : ReadState σ)
    (h : ReadData.InRange st) (hn : 0 ≤ (ReadData.answer r st).n) :
    (ReadData.after r st).take (st.bufferCurrentLen + (ReadData.answer r st).n).toNat
      = st.initBuffer.take st.bufferCurrentLen.toNat ++ (ReadData.call r st).chunk := by
  obtain ⟨hg, _, _, hlt, htk, _⟩ := grow_spec st h
  obtain ⟨_, _, h0, _⟩ := h
  have hl : ((ReadData.grow st).initBuffer.take st.bufferCurrentLen.toNat).length
      = st.bufferCurrentLen.toNat := by
    simp only [List.length_take, hg]; omega
  have hsum : (st.bufferCurrentLen + (ReadData.answer r st).n).toNat
      = ((ReadData.grow st).initBuffer.take st.bufferCurrentLen.toNat).length
        + (ReadData.answer r st).n.toNat := by
    rw [hl]; omega
  rw [ReadData.after, hsum, List.take_append, htk]
  rfl

theorem body_eq {σ : Type} (r : Reader σ) (hc : r.Contract) (bufferInitLen : Int)
    (st : ReadState σ) (h : ReadData.InRange st) :
    ReadData.body r bufferInitLen st =
      match (ReadData.answer r st).err with
      | none => Step.next (ReadData.advance r st)
      | some err =>
        Step.ret
          ⟨⟨(ReadData.after r st).take
              (st.bufferCurrentLen + (ReadData.answer r st).n).toNat,
            (ReadData.after r st).drop
              (st.bufferCurrentLen + (ReadData.answer r st).n).toNat⟩⟩
          (st.bufferCurrentLen + (ReadData.answer r st).n - bufferInitLen)
          (reported err) (ReadData.answer r st).next := by
  obtain ⟨hg, hp, hs, hlt, _, _⟩ := grow_spec st h
  obtain ⟨hr, _⟩ := region_length st h
  have hal := after_length r st h
  obtain ⟨hn0, hn1⟩ := hc st.src (ReadData.region st)
  obtain ⟨_, _, h0, _⟩ := h
  have c1 : 0 ≤ st.bufferCurrentLen ∧
      st.bufferCurrentLen ≤ ((ReadData.grow st).initBuffer.length : Int) := by
    rw [hg]; omega
  have c2 : 0 ≤ st.bufferCurrentLen + (ReadData.answer r st).n ∧
      st.bufferCurrentLen + (ReadData.answer r st).n
        ≤ ((ReadData.after r st).length : Int) := by
    rw [hal]
    have : (ReadData.answer r st).n ≤ ((ReadData.region st).length : Int) := hn1
    have : 0 ≤ (ReadData.answer r st).n := hn0
    omega
  unfold ReadData.body
  simp only [hp, hs]
  rw [if_pos c1]
  simp only [ReadData.answer, ReadData.region, ReadData.after, ReadData.advance] at c2 ⊢
  cases hE : (r.Read st.src
      (List.drop st.bufferCurrentLen.toNat (ReadData.grow st).initBuffer)).err with
  | none => rfl
  | some err =>
    simp only [if_pos c2, reported]
    split_ifs <;> rfl

/-! ## The loop -/

theorem recorded_contract {σ : Type} (r : Reader σ) (hc : r.Contract) :
    r.recorded.Contract := fun s p => hc s.1 p

theorem advance_inRange {σ : Type} (r : Reader σ) (hc : r.Contract) (st : ReadState σ)
    (h : ReadData.InRange st) : ReadData.InRange (ReadData.advance r st) := by
  obtain ⟨hg, hp, hs, hlt, _, hcap⟩ := grow_spec st h
  obtain ⟨hr, _⟩ := region_length st h
  have hal := after_length r st h
  obtain ⟨hn0, hn1⟩ := hc st.src (ReadData.region st)
  obtain ⟨_, hpos, h0, _⟩ := h
  have : (ReadData.answer r st).n ≤ ((ReadData.region st).length : Int) := hn1
  have : 0 ≤ (ReadData.answer r st).n := hn0
  refine ⟨hal, ?_, ?_, ?_⟩
  · show 0 < (ReadData.grow st).bufferMaxCap
    omega
  · show 0 ≤ st.bufferCurrentLen + (ReadData.answer r st).n
    omega
  · show st.bufferCurrentLen + (ReadData.answer r st).n
      ≤ ((ReadData.grow st).bufferMaxCap : Int)
    omega

theorem call_conform {σ : Type} (r : Reader σ) (hc : r.Contract) (st : ReadState σ)
    (h : ReadData.InRange st) :
    0 < (ReadData.call r st).offered ∧ 0 ≤ (ReadData.call r st).n ∧
      (ReadData.call r st).n ≤ ((ReadData.call r st).offered : Int) ∧
      (ReadData.call r st).bytes.length = (ReadData.call r st).offered ∧
      ((ReadData.call r st).chunk.length : Int) = (ReadData.call r st).n := by
  obtain ⟨_, hr⟩ := region_length st h
  obtain ⟨hn0, hn1⟩ := hc st.src (ReadData.region st)
  have h1 : (ReadData.answer r st).n ≤ ((ReadData.region st).length : Int) := hn1
  have h0 : 0 ≤ (ReadData.answer r st).n := hn0
  refine ⟨hr, h0, h1, storeInto_length _ _, ?_⟩
  simp only [Call.chunk, ReadData.call, List.length_take, storeInto_length]
  omega

theorem delivered_cons (c : Call) (calls : List Call) :
    delivered (c :: calls) = c.chunk ++ delivered calls := by
  simp [delivered]

theorem total_cons (c : Call) (calls : List Call) :
    total (c :: calls) = c.n + total calls := by
  simp [total]

theorem total_nonneg (calls : List Call) (h : ∀ c ∈ calls, 0 ≤ c.n) : 0 ≤ total calls := by
  induction calls with
  | nil => simp [total]
  | cons c cs ih =>
    rw [total_cons]
    have h1 := h c (List.mem_cons_self c cs)
    have h2 := ih (fun d hd => h d (List.mem_cons_of_mem c hd))
    omega

theorem recorded_log {σ : Type} (r : Reader σ) (st : ReadState (σ × List Call)) :
    (ReadData.answer r.recorded st).next.2 = st.src.2 ++ [ReadData.call r.recorded st] :=
  rfl

theorem ret_facts {σ : Type} (r : Reader σ) (hc : r.Contract) (bufferInitLen : Int)
    (st : ReadState σ) (h : ReadData.InRange st) (err : error)
    (hE : (ReadData.answer r st).err = some err) :
    ReadData.RunFacts st bufferInitLen
      ⟨⟨(ReadData.after r st).take (st.bufferCurrentLen + (ReadData.answer r st).n).toNat,
        (ReadData.after r st).drop (st.bufferCurrentLen + (ReadData.answer r st).n).toNat⟩⟩
      (st.bufferCurrentLen + (ReadData.answer r st).n - bufferInitLen)
      (reported err) [ReadData.call r st] := by
  obtain ⟨hg, hp, hs, hlt, _, hcap⟩ := grow_spec st h
  obtain ⟨hr, _⟩ := region_length st h
  have hal := after_length r st h
  obtain ⟨c0, c1, c2, c3, c4⟩ := call_conform r hc st h
  have hn : (ReadData.call r st).n = (ReadData.answer r st).n := rfl
  have ho : (ReadData.call r st).offered = (ReadData.region st).length := rfl
  rw [hn] at c1 c2
  rw [ho] at c2
  have htk := after_take r st h c1
  obtain ⟨_, hpos, h0, _⟩ := h
  have hlen : ((List.take (st.bufferCurrentLen + (ReadData.answer r st).n).toNat
      (ReadData.after r st)).length : Int)
      = st.bufferCurrentLen + (ReadData.answer r st).n := by
    rw [List.length_take, hal]; omega
  constructor
  · simp only [htk, delivered, List.map_cons, List.map_nil, List.flatten_cons,
      List.flatten_nil, List.append_nil]
  · simp only [len, total, List.map_cons, List.map_nil, List.sum_cons, List.sum_nil,
      hn, add_zero]
    exact hlen
  · simp only [total, List.map_cons, List.map_nil, List.sum_cons, List.sum_nil, hn, add_zero]
  · have hcapb : cap (⟨⟨(ReadData.after r st).take
          (st.bufferCurrentLen + (ReadData.answer r st).n).toNat,
        (ReadData.after r st).drop
          (st.bufferCurrentLen + (ReadData.answer r st).n).toNat⟩⟩ : Buffer).ByteBuffer
        = (ReadData.grow st).bufferMaxCap := by
      simp only [cap, List.length_take, List.length_drop, hal]; omega
    rw [hcapb]
    rcases hcap with hk | ⟨hk, hq⟩
    · exact ⟨0, by rw [hk]; simp, Or.inl rfl⟩
    · refine ⟨1, by rw [hk]; simp, Or.inr ?_⟩
      simp only [len]
      omega
  · exact ⟨[], ReadData.call r st, err, rfl, by simp, hE, rfl⟩
  · intro c hcm
    rw [List.mem_singleton] at hcm
    subst hcm
    exact ⟨c0, by rw [hn]; exact c1, by rw [hn, ho]; exact c2, c3⟩
  · exact ⟨ReadData.call r st, [], rfl, rfl⟩

theorem next_facts {σ : Type} (r : Reader σ) (hc : r.Contract) (bufferInitLen : Int)
    (st : ReadState σ) (h : ReadData.InRange st)
    (hE : (ReadData.answer r st).err = none)
    (b : Buffer) (n : Int) (e : Option error) (calls : List Call)
    (hf : ReadData.RunFacts (ReadData.advance r st) bufferInitLen b n e calls) :
    ReadData.RunFacts st bufferInitLen b n e (ReadData.call r st :: calls) := by
  obtain ⟨hg, hp, hs, hlt, _, hcap⟩ := grow_spec st h
  obtain ⟨c0, c1, c2, c3, c4⟩ := call_conform r hc st h
  have hn : (ReadData.call r st).n = (ReadData.answer r st).n := rfl
  have hpos1 : (ReadData.advance r st).bufferCurrentLen
      = st.bufferCurrentLen + (ReadData.call r st).n := rfl
  have hcap1 : (ReadData.advance r st).bufferMaxCap = (ReadData.grow st).bufferMaxCap := rfl
  have hbuf1 : (ReadData.advance r st).initBuffer = ReadData.after r st := rfl
  have htk := after_take r st h (by rw [← hn]; exact c1)
  obtain ⟨fcontent, flength, fcount, ⟨k, fk, fk2⟩, ⟨front, last, err, fs1, fs2, fs3, fs4⟩,
    fconform, _⟩ := hf
  have htot : 0 ≤ total calls := total_nonneg calls (fun c hcm => (fconform c hcm).2.1)
  obtain ⟨_, hposc, h0, _⟩ := h
  rw [hpos1] at flength fcount
  constructor
  · rw [fcontent, hbuf1, hpos1, hn, htk, delivered_cons, List.append_assoc]
  · rw [total_cons, flength]; ring
  · rw [total_cons, fcount]; ring
  · rw [hcap1] at fk
    rcases hcap with hk | ⟨hk, hq⟩
    · exact ⟨k, by rw [fk, hk], fk2⟩
    · refine ⟨k + 1, by rw [fk, hk, pow_succ]; ring, Or.inr ?_⟩
      rcases fk2 with fk0 | fk1
      · subst fk0
        rw [fk, hk]
        simp only [pow_zero, mul_one]
        omega
      · exact fk1
  · refine ⟨ReadData.call r st :: front, last, err, by rw [fs1]; rfl, ?_, fs3, fs4⟩
    intro c hcm
    rcases List.mem_cons.mp hcm with hc1 | hc2
    · rw [hc1]; exact hE
    · exact fs2 c hc2
  · intro c hcm
    rcases List.mem_cons.mp hcm with hc1 | hc2
    · rw [hc1]; exact ⟨c0, c1, c2, c3⟩
    · exact fconform c hc2
  · exact ⟨ReadData.call r st, calls, rfl, rfl⟩

theorem loop_facts {σ : Type} (r : Reader σ) (hc : r.Contract) (bufferInitLen : Int) :
    ∀ (fuel : Nat) (st : ReadState (σ × List Call)), ReadData.InRange st →
      ReadData.loop r.recorded bufferInitLen fuel st = Outcome.outOfFuel ∨
      ∃ b n e s calls,
        ReadData.loop r.recorded bufferInitLen fuel st
          = Outcome.ret b n e (s, st.src.2 ++ calls) ∧
        ReadData.RunFacts st bufferInitLen b n e calls
  | 0, _, _ => Or.inl rfl
  | fuel + 1, st, h => by
    have hb := body_eq r.recorded (recorded_contract r hc) bufferInitLen st h
    have hlog := recorded_log r st
    cases hE : (ReadData.answer r.recorded st).err with
    | none =>
      simp only [hE] at hb
      have hl : ReadData.loop r.recorded bufferInitLen (fuel + 1) st
          = ReadData.loop r.recorded bufferInitLen fuel (ReadData.advance r.recorded st) := by
        simp only [ReadData.loop, hb]
      have hin := advance_inRange r.recorded (recorded_contract r hc) st h
      rcases loop_facts r hc bufferInitLen fuel _ hin with h1 | ⟨b, n, e, s, calls, h1, hf⟩
      · left; rw [hl, h1]
      · right
        refine ⟨b, n, e, s, ReadData.call r.recorded st :: calls, ?_, ?_⟩
        · rw [hl, h1]
          have : (ReadData.advance r.recorded st).src.2
              = st.src.2 ++ [ReadData.call r.recorded st] := hlog
          rw [this, List.append_assoc]
          rfl
        · exact next_facts r.recorded (recorded_contract r hc) bufferInitLen st h hE
            b n e calls hf
    | some err =>
      simp only [hE] at hb
      right
      refine ⟨_, _, _, (ReadData.answer r.recorded st).next.1, [ReadData.call r.recorded st],
        ?_, ret_facts r.recorded (recorded_contract r hc) bufferInitLen st h err hE⟩
      simp only [ReadData.loop, hb]
      rw [← hlog]

theorem loop_terminates {σ : Type} (r : Reader σ) (hc : r.Contract) (rank : σ → Nat)
    (hx : r.Exhausts rank) (bufferInitLen : Int) :
    ∀ (fuel : Nat) (st : ReadState (σ × List Call)), ReadData.InRange st →
      rank st.src.1 < fuel →
      ReadData.loop r.recorded bufferInitLen fuel st ≠ Outcome.outOfFuel
  | 0, _, _, hlt => by omega
  | fuel + 1, st, h, hlt => by
    have hb := body_eq r.recorded (recorded_contract r hc) bufferInitLen st h
    obtain ⟨_, hr⟩ := region_length st h
    cases hE : (ReadData.answer r.recorded st).err with
    | none =>
      simp only [hE] at hb
      have hl : ReadData.loop r.recorded bufferInitLen (fuel + 1) st
          = ReadData.loop r.recorded bufferInitLen fuel (ReadData.advance r.recorded st) := by
        simp only [ReadData.loop, hb]
      have hin := advance_inRange r.recorded (recorded_contract r hc) st h
      have hdec : rank (ReadData.advance r.recorded st).src.1 < rank st.src.1 :=
        hx st.src.1 (ReadData.region st) (List.ne_nil_of_length_pos hr) hE
      rw [hl]
      exact loop_terminates r hc rank hx bufferInitLen fuel _ hin (by omega)
    | some err =>
      simp only [hE] at hb
      simp only [ReadData.loop, hb]
      exact fun hne => Outcome.noConfusion hne

/-! ## Entering the loop, and the log as a pure observer -/

theorem enter_spec {σ : Type} (b : Buffer) (src : σ) :
    ReadData.InRange (ReadData.enter b src) ∧
    (ReadData.enter b src).bufferCurrentLen = (len b.ByteBuffer : Int) ∧
    (ReadData.enter b src).bufferMaxCap = startCap b ∧
    (ReadData.enter b src).initBuffer.take (len b.ByteBuffer) = b.ByteBuffer.elems ∧
    (ReadData.enter b src).src = src := by
  by_cases h : cap b.ByteBuffer = 0
  · have he : ReadData.enter b src = ⟨make 64, 64, (len b.ByteBuffer : Int), src⟩ := by
      simp only [ReadData.enter, h, if_true]
    have h1 : b.ByteBuffer.elems = [] := by
      apply List.eq_nil_of_length_eq_zero
      simp only [cap] at h; omega
    rw [he]
    refine ⟨⟨make_length 64, Nat.succ_pos 63, ?_, ?_⟩, rfl, ?_, ?_, rfl⟩
    · simp only [len, h1, List.length_nil]; decide
    · simp only [len, h1, List.length_nil]; decide
    · simp only [startCap, h, if_true]
    · simp only [len, h1, List.length_nil, List.take_zero]
  · have he : ReadData.enter b src
        = ⟨b.ByteBuffer.elems ++ b.ByteBuffer.spare, cap b.ByteBuffer,
            (len b.ByteBuffer : Int), src⟩ := by
      simp only [ReadData.enter, h, if_false]
    rw [he]
    refine ⟨⟨?_, Nat.pos_of_ne_zero h, ?_, ?_⟩, rfl, ?_, ?_, rfl⟩
    · simp only [cap, List.length_append]
    · simp only [len]; omega
    · simp only [len, cap]; omega
    · simp only [startCap, h, if_false]
    · simp only [len, List.take_left']

theorem grow_forget {σ : Type} (st : ReadState (σ × List Call)) :
    ReadData.grow st.forget = (ReadData.grow st).forget := by
  unfold ReadData.grow ReadState.forget
  split_ifs <;> rfl

theorem body_forget {σ : Type} (r : Reader σ) (bufferInitLen : Int)
    (st : ReadState (σ × List Call)) :
    ReadData.body r bufferInitLen st.forget
      = (ReadData.body r.recorded bufferInitLen st).forget := by
  unfold ReadData.body
  simp only [grow_forget]
  generalize ReadData.grow st = g
  simp only [ReadState.forget, Reader.recorded]
  by_cases c1 : 0 ≤ g.bufferCurrentLen ∧ g.bufferCurrentLen ≤ (g.initBuffer.length : Int)
  · simp only [if_pos c1]
    cases hE : (r.Read g.src.1 (List.drop g.bufferCurrentLen.toNat g.initBuffer)).err with
    | none => rfl
    | some err =>
      simp only []
      split_ifs <;> rfl
  · simp only [if_neg c1, Step.forget]

theorem loop_forget {σ : Type} (r : Reader σ) (bufferInitLen : Int) :
    ∀ (fuel : Nat) (st : ReadState (σ × List Call)),
      ReadData.loop r bufferInitLen fuel st.forget
        = (ReadData.loop r.recorded bufferInitLen fuel st).forget
  | 0, _ => rfl
  | fuel + 1, st => by
    simp only [ReadData.loop, body_forget]
    cases hb : ReadData.body r.recorded bufferInitLen st with
    | next st1 => simp only [Step.forget]; exact loop_forget r bufferInitLen fuel st1
    | ret b n err src => rfl
    | panic => rfl

theorem ReadData_forget {σ : Type} (r : Reader σ) (fuel : Nat) (b : Buffer) (s : σ)
    (log : List Call) :
    b.ReadData r fuel s = (b.ReadData r.recorded fuel (s, log)).forget := by
  unfold Buffer.ReadData
  rw [← loop_forget]
  congr 1
  simp only [ReadData.enter, ReadState.forget]
  split_ifs <;> rfl

/-! ## Whole runs of ReadData -/

/-- What the facts about a run of the loop say about the call of `ReadData` on
buffer `b` that the run belongs to. -/
theorem entry_facts {σ : Type} (b : Buffer) (src : σ) (b' : Buffer) (n : Int)
    (e : Option error) (calls : List Call)
    (hf : ReadData.RunFacts (ReadData.enter b src) (len b.ByteBuffer) b' n e calls) :
    b'.ByteBuffer.elems = b.ByteBuffer.elems ++ delivered calls ∧
    (b'.Len : Int) = b.Len + total calls ∧
    n = total calls ∧
    (∃ k, cap b'.ByteBuffer = startCap b * 2 ^ k ∧
      (k = 0 ∨ cap b'.ByteBuffer ≤ 2 * b'.Len)) := by
  obtain ⟨_, hpos, hcap, htake, _⟩ := enter_spec b src
  obtain ⟨fcontent, flength, fcount, fcapacity, _, _, _⟩ := hf
  rw [hpos] at fcontent flength fcount
  rw [hcap] at fcapacity
  rw [Int.toNat_ofNat, htake] at fcontent
  refine ⟨fcontent, flength, ?_, fcapacity⟩
  rw [fcount]; ring

theorem ReadData_safe {σ : Type} (r : Reader σ) (hc : r.Contract) (fuel : Nat)
    (b : Buffer) (s : σ) :
    b.ReadData r.recorded fuel (s, []) = Outcome.outOfFuel ∨
    ∃ b' n e s' calls,
      b.ReadData r.recorded fuel (s, []) = Outcome.ret b' n e (s', calls) ∧
      ReadData.RunFacts (ReadData.enter b (s, ([] : List Call))) (len b.ByteBuffer)
        b' n e calls := by
  obtain ⟨hin, _, _, _, hsrc⟩ := enter_spec b (s, ([] : List Call))
  rcases loop_facts r hc (len b.ByteBuffer) fuel _ hin with h | ⟨b', n, e, s', calls, h, hf⟩
  · exact Or.inl h
  · rw [hsrc, List.nil_append] at h
    exact Or.inr ⟨b', n, e, s', calls, h, hf⟩

theorem ReadData_total {σ : Type} (r : Reader σ) (hc : r.Contract) (rank : σ → Nat)
    (hx : r.Exhausts rank) (fuel : Nat) (b : Buffer) (s : σ) (hfuel : rank s < fuel) :
    ∃ b' n e s' calls,
      b.ReadData r.recorded fuel (s, []) = Outcome.ret b' n e (s', calls) ∧
      ReadData.RunFacts (ReadData.enter b (s, ([] : List Call))) (len b.ByteBuffer)
        b' n e calls := by
  obtain ⟨hin, _, _, _, hsrc⟩ := enter_spec b (s, ([] : List Call))
  rcases ReadData_safe r hc fuel b s with h | h
  · exact absurd h (loop_terminates r hc rank hx (len b.ByteBuffer) fuel _ hin
      (by rw [hsrc]; exact hfuel))
  · exact h

/-! ## The stream source -/

theorem streamReader_contract (limit : Nat) (eager : Bool) (final : error) :
    (streamReader limit eager final).Contract := by
  intro s p
  simp only [streamReader]
  split_ifs <;> simp only [Nat.cast_nonneg, true_and, Nat.cast_le] <;> omega

theorem streamReader_exhausts (limit : Nat) (eager : Bool) (final : error) :
    (streamReader limit eager final).Exhausts List.length := by
  intro s p hp
  have hpl : 0 < p.length := List.length_pos.mpr hp
  simp only [streamReader]
  split_ifs with h
  · intro hne; exact absurd hne (by simp)
  · intro _
    have hs : s ≠ [] := by
      intro hs
      apply h
      subst hs
      simp
    have hsl : 0 < s.length := List.length_pos.mpr hs
    simp only [List.length_drop]
    omega

theorem delivered_length (calls : List Call)
    (h : ∀ c ∈ calls, 0 < c.offered ∧ 0 ≤ c.n ∧ c.n ≤ (c.offered : Int) ∧
      c.bytes.length = c.offered) :
    ((delivered calls).length : Int) = total calls := by
  induction calls with
  | nil => simp [delivered, total]
  | cons c cs ih =>
    obtain ⟨_, h0, h1, h2⟩ := h c (List.mem_cons_self c cs)
    have ih1 := ih (fun d hd => h d (List.mem_cons_of_mem c hd))
    rw [delivered_cons, total_cons, List.length_append, Nat.cast_add, ih1]
    have : ((c.chunk.length : Nat) : Int) = c.n := by
      simp only [Call.chunk, List.length_take, h2]
      omega
    rw [this]

theorem ReadData_total_plain {σ : Type} (r : Reader σ) (hc : r.Contract) (rank : σ → Nat)
    (hx : r.Exhausts rank) (fuel : Nat) (b : Buffer) (s : σ) (hfuel : rank s < fuel) :
    ∃ b' n e s' calls,
      b.ReadData r fuel s = Outcome.ret b' n e s' ∧
      ReadData.RunFacts (ReadData.enter b (s, ([] : List Call))) (len b.ByteBuffer)
        b' n e calls := by
  obtain ⟨b', n, e, s', calls, h, hf⟩ := ReadData_total r hc rank hx fuel b s hfuel
  refine ⟨b', n, e, s', calls, ?_, hf⟩
  rw [ReadData_forget r fuel b s [], h]
  rfl

theorem ReadData_no_panic {σ : Type} (r : Reader σ) (hc : r.Contract) (fuel : Nat)
    (b : Buffer) (s : σ) : b.ReadData r fuel s ≠ Outcome.panic := by
  rw [ReadData_forget r fuel b s []]
  rcases ReadData_safe r hc fuel b s with h | ⟨b', n, e, s', calls, h, _⟩
  · rw [h]; exact fun hne => Outcome.noConfusion hne
  · rw [h]; exact fun hne => Outcome.noConfusion hne

theorem body_safe {σ : Type} (r : Reader σ) (hc : r.Contract) (bufferInitLen : Int)
    (st : ReadState σ) (h : ReadData.InRange st) :
    ReadData.body r bufferInitLen st ≠ Step.panic ∧
    ∀ st', ReadData.body r bufferInitLen st = Step.next st' → ReadData.InRange st' := by
  have hb := body_eq r hc bufferInitLen st h
  have hin := advance_inRange r hc st h
  cases hE : (ReadData.answer r st).err with
  | none =>
    simp only [hE] at hb
    rw [hb]
    refine ⟨fun hne => Step.noConfusion hne, ?_⟩
    intro st' hst
    injection hst with hst
    rw [← hst]; exact hin
  | some err =>
    simp only [hE] at hb
    rw [hb]
    exact ⟨fun hne => Step.noConfusion hne, fun st' hst => Step.noConfusion hst⟩

theorem loop_view {σ : Type} (r : Reader σ) (hc : r.Contract) (view : σ → List UInt8)
    (hv : r.Delivers view) (bufferInitLen : Int) :
    ∀ (fuel : Nat) (st : ReadState (σ × List Call)), ReadData.InRange st →
      ∀ b n e s' log, ReadData.loop r.recorded bufferInitLen fuel st
          = Outcome.ret b n e (s', log) →
        ∃ calls, log = st.src.2 ++ calls ∧ delivered calls = view st.src.1
  | 0, _, _ => fun _ _ _ _ _ h => Outcome.noConfusion h
  | fuel + 1, st, h => by
    intro b n e s' log hret
    have hb := body_eq r.recorded (recorded_contract r hc) bufferInitLen st h
    have hlog := recorded_log r st
    obtain ⟨hv1, hv2⟩ := hv st.src.1 (ReadData.region st)
    have hchunk : (ReadData.call r.recorded st).chunk
        ++ view (ReadData.answer r.recorded st).next.1 = view st.src.1 := hv1
    cases hE : (ReadData.answer r.recorded st).err with
    | none =>
      simp only [hE] at hb
      have hl : ReadData.loop r.recorded bufferInitLen (fuel + 1) st
          = ReadData.loop r.recorded bufferInitLen fuel (ReadData.advance r.recorded st) := by
        simp only [ReadData.loop, hb]
      rw [hl] at hret
      have hin := advance_inRange r.recorded (recorded_contract r hc) st h
      obtain ⟨calls, hcalls, hd⟩ :=
        loop_view r hc view hv bufferInitLen fuel _ hin b n e s' log hret
      have h2 : (ReadData.advance r.recorded st).src.2
          = st.src.2 ++ [ReadData.call r.recorded st] := hlog
      have h1 : (ReadData.advance r.recorded st).src.1
          = (ReadData.answer r.recorded st).next.1 := rfl
      refine ⟨ReadData.call r.recorded st :: calls, ?_, ?_⟩
      · rw [hcalls, h2, List.append_assoc]; rfl
      · rw [delivered_cons, hd, h1]; exact hchunk
    | some err =>
      simp only [hE] at hb
      simp only [ReadData.loop, hb] at hret
      injection hret with _ _ _ hsrc
      have hnil : view (ReadData.answer r.recorded st).next.1 = [] :=
        hv2 (by
          have : (r.Read st.src.1 (ReadData.region st)).err = some err := hE
          rw [this]; exact fun hne => Option.noConfusion hne)
      rw [hnil, List.append_nil] at hchunk
      refine ⟨[ReadData.call r.recorded st], ?_, ?_⟩
      · rw [← hlog, hsrc]
      · rw [delivered_cons]
        simp only [delivered, List.map_nil, List.flatten_nil, List.append_nil]
        exact hchunk

theorem ReadData_view {σ : Type} (r : Reader σ) (hc : r.Contract) (view : σ → List UInt8)
    (hv : r.Delivers view) (fuel : Nat) (b : Buffer) (s : σ) (b' : Buffer) (n : Int)
    (e : Option error) (s' : σ) (calls : List Call)
    (hret : b.ReadData r.recorded fuel (s, []) = Outcome.ret b' n e (s', calls)) :
    delivered calls = view s := by
  obtain ⟨hin, _, _, _, hsrc⟩ := enter_spec b (s, ([] : List Call))
  obtain ⟨calls1, h1, h2⟩ :=
    loop_view r hc view hv (len b.ByteBuffer) fuel _ hin b' n e s' calls hret
  rw [hsrc] at h1 h2
  rw [List.nil_append] at h1
  rw [h1]; exact h2

theorem storeInto_take (p out : List UInt8) (h : out.length ≤ p.length) :
    (storeInto p out).take out.length = out := by
  unfold storeInto
  rw [List.take_take, Nat.min_eq_left h, List.take_left']
  rfl

theorem streamReader_delivers (limit : Nat) (eager : Bool) (final : error) :
    (streamReader limit eager final).Delivers id := by
  intro s p
  have hk : (s.take (min (min (limit + 1) p.length) s.length)).length
      = min (min (limit + 1) p.length) s.length := by
    rw [List.length_take]; omega
  have hle : (s.take (min (min (limit + 1) p.length) s.length)).length ≤ p.length := by
    rw [hk]; omega
  have hst := storeInto_take p _ hle
  rw [hk] at hst
  simp only [streamReader]
  split_ifs with h
  · simp only [Int.toNat_ofNat, id, hst, List.take_append_drop, true_and]
    exact fun _ => h.1
  · simp only [Int.toNat_ofNat, id, hst, List.take_append_drop, true_and]
    exact fun hne => absurd rfl hne

/-! ## Write and WriteData -/

theorem append_elems (slack : Nat → Nat → Nat) (s : byteSlice) (p : List UInt8) :
    (append slack s p).elems = s.elems ++ p := by
  unfold append
  split_ifs <;> rfl

/-- C1. Round trip: `Write(S)` on a fresh Buffer (no content, any spare
capacity) followed by `WriteData(w)` makes exactly one call of `w.Write`, on
the Buffer's slice, whose bytes are exactly `S`: the sink's state afterwards
is the one that call leaves, and a sink that logs what it receives holds the
single entry `S`. -/
theorem C1_write_then_writeData_round_trip {τ : Type} (slack : Nat → Nat → Nat)
    (spare S : List UInt8) (w : Writer τ) (snk : τ)
    (reply : List UInt8 → Int × Option error) :
    (Buffer.Write slack ⟨⟨[], spare⟩⟩ S).1.ByteBuffer.elems = S ∧
    ((Buffer.Write slack ⟨⟨[], spare⟩⟩ S).1.WriteData w snk).2.2.2
      = (w.Write snk (Buffer.Write slack ⟨⟨[], spare⟩⟩ S).1.ByteBuffer
          (Buffer.Write slack ⟨⟨[], spare⟩⟩ S).1).next ∧
    ((Buffer.Write slack ⟨⟨[], spare⟩⟩ S).1.WriteData (recorder reply) []).2.2.2 = [S] := by
  simp [Buffer.Write, Buffer.WriteData, append_elems, recorder]

/-- C5. `Write` is infallible and appends: it returns `(len(p), nil)`, the content
afterwards is the old content followed by `p`, and `Len()` grows by `len(p)`. -/
theorem C5_write_appends (slack : Nat → Nat → Nat) (b : Buffer) (p : List UInt8) :
    (b.Write slack p).2 = ((p.length : Int), none) ∧
    (b.Write slack p).1.ByteBuffer.elems = b.ByteBuffer.elems ++ p ∧
    (b.Write slack p).1.Len = b.Len + p.length := by
  simp [Buffer.Write, Buffer.Len, len, append_elems]

theorem recorder_detached (reply : List UInt8 → Int × Option error) :
    (recorder reply).Detached := fun _ _ _ => rfl

/-- The claim C6 as it is stated fails for a sink that reaches the buffer: with
the Buffer as the sink of its own `WriteData` (`*Buffer` is an `io.Writer`) the
call returns `(2, nil)` and the content `[1, 2]` has become `[1, 2, 1, 2]`, the
length 4 instead of 2. -/
theorem C6_writeData_own_sink_changes_buffer :
    Buffer.WriteData (selfSink (fun _ _ => 0)) ⟨⟨[1, 2], []⟩⟩ ()
      = (⟨⟨[1, 2, 1, 2], []⟩⟩, 2, none, ()) ∧
    (Buffer.WriteData (selfSink (fun _ _ => 0)) ⟨⟨[1, 2], []⟩⟩ ()).1.ByteBuffer.elems
      ≠ (⟨⟨[1, 2], []⟩⟩ : Buffer).ByteBuffer.elems ∧
    (Buffer.WriteData (selfSink (fun _ _ => 0)) ⟨⟨[1, 2], []⟩⟩ ()).1.Len = 4 ∧
    Buffer.Len ⟨⟨[1, 2], []⟩⟩ = 2 ∧
    cap (Buffer.WriteData (selfSink (fun _ _ => 0)) ⟨⟨[1, 2], []⟩⟩ ()).1.ByteBuffer = 4 ∧
    cap (⟨⟨[1, 2], []⟩⟩ : Buffer).ByteBuffer = 2 :=
  ⟨rfl, by decide, rfl, rfl, rfl, rfl⟩

/-- C6, amended. `WriteData` makes exactly one call of the sink's `Write`, on the
slice that holds the buffer's full content, and returns the sink's count and
error as they are; the buffer afterwards is the buffer as that call left it,
`WriteData` itself assigns nothing. For a sink that leaves the buffer alone
the buffer (content, length and capacity) is as it was; a logging sink gains
exactly one entry, the content. -/
theorem C6_writeData_frame {τ : Type} (w : Writer τ) (hd : w.Detached) (b : Buffer)
    (snk : τ) (reply : List UInt8 → Int × Option error) (log : List (List UInt8)) :
    (∀ (υ : Type) (v : Writer υ) (t : υ),
      b.WriteData v t
        = ((v.Write t b.ByteBuffer b).buf, (v.Write t b.ByteBuffer b).n,
            (v.Write t b.ByteBuffer b).err, (v.Write t b.ByteBuffer b).next)) ∧
    b.WriteData w snk
      = (b, (w.Write snk b.ByteBuffer b).n, (w.Write snk b.ByteBuffer b).err,
          (w.Write snk b.ByteBuffer b).next) ∧
    (b.WriteData w snk).1.ByteBuffer.elems = b.ByteBuffer.elems ∧
    (b.WriteData w snk).1.Len = b.Len ∧
    cap (b.WriteData w snk).1.ByteBuffer = cap b.ByteBuffer ∧
    b.WriteData (recorder reply) log
      = (b, (reply b.ByteBuffer.elems).1, (reply b.ByteBuffer.elems).2,
          log ++ [b.ByteBuffer.elems]) := by
  have h : b.WriteData w snk
      = (b, (w.Write snk b.ByteBuffer b).n, (w.Write snk b.ByteBuffer b).err,
          (w.Write snk b.ByteBuffer b).next) := by
    simp only [Buffer.WriteData, hd snk b.ByteBuffer b]
  refine ⟨fun _ _ _ => rfl, h, ?_, ?_, ?_, rfl⟩
  · rw [h]
  · rw [h]
  · rw [h]

/-- Witness of C6: the logging sink leaves the buffer alone. -/
theorem C6_writeData_frame_witness :
    (recorder (fun p => ((p.length : Int), none))).Detached ∧
    ((∀ (υ : Type) (v : Writer υ) (t : υ),
      Buffer.WriteData v ⟨⟨[1, 2], [0]⟩⟩ t
        = ((v.Write t ⟨[1, 2], [0]⟩ ⟨⟨[1, 2], [0]⟩⟩).buf,
            (v.Write t ⟨[1, 2], [0]⟩ ⟨⟨[1, 2], [0]⟩⟩).n,
            (v.Write t ⟨[1, 2], [0]⟩ ⟨⟨[1, 2], [0]⟩⟩).err,
            (v.Write t ⟨[1, 2], [0]⟩ ⟨⟨[1, 2], [0]⟩⟩).next)) ∧
    Buffer.WriteData (recorder (fun p => ((p.length : Int), none))) ⟨⟨[1, 2], [0]⟩⟩ [[7]]
      = (⟨⟨[1, 2], [0]⟩⟩,
          ((recorder (fun p => ((p.length : Int), none))).Write [[7]] ⟨[1, 2], [0]⟩
            ⟨⟨[1, 2], [0]⟩⟩).n,
          ((recorder (fun p => ((p.length : Int), none))).Write [[7]] ⟨[1, 2], [0]⟩
            ⟨⟨[1, 2], [0]⟩⟩).err,
          ((recorder (fun p => ((p.length : Int), none))).Write [[7]] ⟨[1, 2], [0]⟩
            ⟨⟨[1, 2], [0]⟩⟩).next) ∧
    (Buffer.WriteData (recorder (fun p => ((p.length : Int), none))) ⟨⟨[1, 2], [0]⟩⟩
      [[7]]).1.ByteBuffer.elems = [1, 2] ∧
    (Buffer.WriteData (recorder (fun p => ((p.length : Int), none))) ⟨⟨[1, 2], [0]⟩⟩
      [[7]]).1.Len = Buffer.Len ⟨⟨[1, 2], [0]⟩⟩ ∧
    cap (Buffer.WriteData (recorder (fun p => ((p.length : Int), none))) ⟨⟨[1, 2], [0]⟩⟩
      [[7]]).1.ByteBuffer = cap (⟨⟨[1, 2], [0]⟩⟩ : Buffer).ByteBuffer ∧
    Buffer.WriteData (recorder (fun p => ((p.length : Int), none))) ⟨⟨[1, 2], [0]⟩⟩ [[9]]
      = (⟨⟨[1, 2], [0]⟩⟩, 2, none, [[9], [1, 2]])) :=
  ⟨recorder_detached _,
    C6_writeData_frame (recorder (fun p => ((p.length : Int), none)))
      (recorder_detached _) ⟨⟨[1, 2], [0]⟩⟩ [[7]] (fun p => ((p.length : Int), none)) [[9]]⟩

/-! ## ReadData -/

/-- C2. Chunking-invariance: for a source that obeys the reader contract and
reports a non-nil error after finitely many calls, `ReadData` returns after a
sequence of calls of which every one but the last returned a nil error and the
last one the non-nil error (nil is returned for `io.EOF`); the content
afterwards is the old content followed by the chunks these calls delivered, in
order, and the length afterwards is the old length plus the number of bytes
delivered, which is the count returned. For a source that hands out a byte
stream the chunks make up that stream, so the content afterwards is the old
content followed by the stream, whatever the chunk boundaries were. -/
theorem C2_readData_chunking_invariance {σ : Type} (r : Reader σ) (rank : σ → Nat)
    (hc : r.Contract) (hx : r.Exhausts rank) (b : Buffer) (s : σ) (fuel : Nat)
    (hfuel : rank s < fuel) :
    ∃ b' n e s' front last err,
      b.ReadData r.recorded fuel (s, []) = Outcome.ret b' n e (s', front ++ [last]) ∧
      (∀ c ∈ front, c.err = none) ∧ last.err = some err ∧
      (err = error.EOF → e = none) ∧
      b'.ByteBuffer.elems = b.ByteBuffer.elems ++ delivered (front ++ [last]) ∧
      b'.Len = b.Len + (delivered (front ++ [last])).length ∧
      ((delivered (front ++ [last])).length : Int) = total (front ++ [last]) ∧
      n = total (front ++ [last]) ∧
      (∀ view : σ → List UInt8, r.Delivers view →
        delivered (front ++ [last]) = view s ∧
        b'.ByteBuffer.elems = b.ByteBuffer.elems ++ view s ∧
        b'.Len = b.Len + (view s).length) := by
  obtain ⟨b', n, e, s', calls, h, hf⟩ := ReadData_total r hc rank hx fuel b s hfuel
  obtain ⟨h1, _, h3, _⟩ := entry_facts b _ b' n e calls hf
  have hd := delivered_length calls hf.conform
  have hlen : b'.Len = b.Len + (delivered calls).length := by
    simp only [Buffer.Len, len, h1, List.length_append]
  have hview : ∀ view : σ → List UInt8, r.Delivers view → delivered calls = view s :=
    fun view hv => ReadData_view r hc view hv fuel b s b' n e s' calls h
  obtain ⟨front, last, err, hs1, hs2, hs3, hs4⟩ := hf.shape
  subst hs1
  refine ⟨b', n, e, s', front, last, err, h, hs2, hs3, ?_, h1, hlen, hd, h3, ?_⟩
  · intro heof
    rw [hs4, reported, if_pos heof]
  · intro view hv
    have hvs := hview view hv
    refine ⟨hvs, ?_, ?_⟩
    · rw [h1, hvs]
    · rw [hlen, hvs]

/-- Witness of C2: the stream `[1, 2, 3]` read into a buffer that holds one byte,
in chunks of at most two bytes; the run makes three calls, the last of which
reports `io.EOF`. Read one byte at a time the same stream leaves the same
content. -/
theorem C2_readData_chunking_invariance_witness :
    (streamReader 1 false error.EOF).Contract ∧
    (streamReader 1 false error.EOF).Exhausts List.length ∧
    List.length ([1, 2, 3] : List UInt8) < 4 ∧
    (∃ b' n e s' front last err,
      Buffer.ReadData (streamReader 1 false error.EOF).recorded 4 ⟨⟨[9], []⟩⟩ ([1, 2, 3], [])
        = Outcome.ret b' n e (s', front ++ [last]) ∧
      (∀ c ∈ front, c.err = none) ∧ last.err = some err ∧
      (err = error.EOF → e = none) ∧
      b'.ByteBuffer.elems
        = (⟨⟨[9], []⟩⟩ : Buffer).ByteBuffer.elems ++ delivered (front ++ [last]) ∧
      b'.Len = Buffer.Len ⟨⟨[9], []⟩⟩ + (delivered (front ++ [last])).length ∧
      ((delivered (front ++ [last])).length : Int) = total (front ++ [last]) ∧
      n = total (front ++ [last]) ∧
      (∀ view : List UInt8 → List UInt8, (streamReader 1 false error.EOF).Delivers view →
        delivered (front ++ [last]) = view [1, 2, 3] ∧
        b'.ByteBuffer.elems = (⟨⟨[9], []⟩⟩ : Buffer).ByteBuffer.elems ++ view [1, 2, 3] ∧
        b'.Len = Buffer.Len ⟨⟨[9], []⟩⟩ + (view [1, 2, 3]).length)) ∧
    (streamReader 1 false error.EOF).Delivers id ∧
    Buffer.ReadData (streamReader 1 false error.EOF).recorded 4 ⟨⟨[9], []⟩⟩ ([1, 2, 3], [])
      = Outcome.ret ⟨⟨[9, 1, 2, 3], [0, 0, 0, 0]⟩⟩ 3 none
          ([], [⟨1, [1], 1, none⟩, ⟨2, [2, 3], 2, none⟩] ++
            [⟨4, [0, 0, 0, 0], 0, some error.EOF⟩]) ∧
    Buffer.ReadData (streamReader 0 false error.EOF).recorded 4 ⟨⟨[9], []⟩⟩ ([1, 2, 3], [])
      = Outcome.ret ⟨⟨[9, 1, 2, 3], [0, 0, 0, 0]⟩⟩ 3 none
          ([], [⟨1, [1], 1, none⟩, ⟨2, [2, 0], 1, none⟩, ⟨1, [3], 1, none⟩] ++
            [⟨4, [0, 0, 0, 0], 0, some error.EOF⟩]) :=
  ⟨streamReader_contract 1 false error.EOF, streamReader_exhausts 1 false error.EOF,
    by decide,
    C2_readData_chunking_invariance (streamReader 1 false error.EOF) List.length
      (streamReader_contract 1 false error.EOF) (streamReader_exhausts 1 false error.EOF)
      ⟨⟨[9], []⟩⟩ [1, 2, 3] 4 (by decide),
    streamReader_delivers 1 false error.EOF, rfl, rfl⟩

/-- C3. End-of-data: when the call that ends the run reported `io.EOF`,
`ReadData` returns a nil error and a count equal to the number of bytes this
call appended, the length afterwards minus the length before. -/
theorem C3_readData_eof_count {σ : Type} (r : Reader σ) (rank : σ → Nat)
    (hc : r.Contract) (hx : r.Exhausts rank) (b : Buffer) (s : σ) (fuel : Nat)
    (hfuel : rank s < fuel) :
    ∃ b' n e s' front last,
      b.ReadData r.recorded fuel (s, []) = Outcome.ret b' n e (s', front ++ [last]) ∧
      (last.err = some error.EOF →
        e = none ∧ n = (b'.Len : Int) - (b.Len : Int) ∧
        n = ((delivered (front ++ [last])).length : Int)) := by
  obtain ⟨b', n, e, s', calls, h, hf⟩ := ReadData_total r hc rank hx fuel b s hfuel
  obtain ⟨_, h2, h3, _⟩ := entry_facts b _ b' n e calls hf
  have hd := delivered_length calls hf.conform
  obtain ⟨front, last, err, hs1, _, hs3, hs4⟩ := hf.shape
  subst hs1
  refine ⟨b', n, e, s', front, last, h, ?_⟩
  intro hlast
  rw [hs3] at hlast
  injection hlast with hlast
  subst hlast
  refine ⟨hs4, ?_, ?_⟩
  · rw [h2, h3]; ring
  · rw [hd, h3]

/-- Witness of C3: a three-byte stream that ends with `io.EOF`. -/
theorem C3_readData_eof_count_witness :
    (streamReader 1 false error.EOF).Contract ∧
    (streamReader 1 false error.EOF).Exhausts List.length ∧
    List.length ([1, 2, 3] : List UInt8) < 4 ∧
    (∃ b' n e s' front last,
      Buffer.ReadData (streamReader 1 false error.EOF).recorded 4 ⟨⟨[9], []⟩⟩ ([1, 2, 3], [])
        = Outcome.ret b' n e (s', front ++ [last]) ∧
      (last.err = some error.EOF →
        e = none ∧ n = (b'.Len : Int) - (Buffer.Len ⟨⟨[9], []⟩⟩ : Int) ∧
        n = ((delivered (front ++ [last])).length : Int))) ∧
    Buffer.ReadData (streamReader 1 false error.EOF).recorded 4 ⟨⟨[9], []⟩⟩ ([1, 2, 3], [])
      = Outcome.ret ⟨⟨[9, 1, 2, 3], [0, 0, 0, 0]⟩⟩ 3 none
          ([], [⟨1, [1], 1, none⟩, ⟨2, [2, 3], 2, none⟩] ++
            [⟨4, [0, 0, 0, 0], 0, some error.EOF⟩]) :=
  ⟨streamReader_contract 1 false error.EOF, streamReader_exhausts 1 false error.EOF,
    by decide,
    C3_readData_eof_count (streamReader 1 false error.EOF) List.length
      (streamReader_contract 1 false error.EOF) (streamReader_exhausts 1 false error.EOF)
      ⟨⟨[9], []⟩⟩ [1, 2, 3] 4 (by decide),
    rfl⟩

/-- C4. Source failure: when the call that ends the run reported an error other
than `io.EOF`, `ReadData` returns that error unchanged together with the
number of bytes the source delivered in all its calls (the failing one
included); those bytes follow the old content, and `Len()` afterwards is the
old length plus that number. -/
theorem C4_readData_failure {σ : Type} (r : Reader σ) (rank : σ → Nat)
    (hc : r.Contract) (hx : r.Exhausts rank) (b : Buffer) (s : σ) (fuel : Nat)
    (hfuel : rank s < fuel) :
    ∃ b' n e s' front last,
      b.ReadData r.recorded fuel (s, []) = Outcome.ret b' n e (s', front ++ [last]) ∧
      ∀ err, last.err = some err → err ≠ error.EOF →
        e = some err ∧ n = ((delivered (front ++ [last])).length : Int) ∧
        b'.ByteBuffer.elems = b.ByteBuffer.elems ++ delivered (front ++ [last]) ∧
        (b'.Len : Int) = (b.Len : Int) + n := by
  obtain ⟨b', n, e, s', calls, h, hf⟩ := ReadData_total r hc rank hx fuel b s hfuel
  obtain ⟨h1, h2, h3, _⟩ := entry_facts b _ b' n e calls hf
  have hd := delivered_length calls hf.conform
  obtain ⟨front, last, err0, hs1, _, hs3, hs4⟩ := hf.shape
  subst hs1
  refine ⟨b', n, e, s', front, last, h, ?_⟩
  intro err hlast hne
  rw [hs3] at hlast
  injection hlast with hlast
  subst hlast
  refine ⟨?_, ?_, h1, ?_⟩
  · rw [hs4, reported, if_neg hne]
  · rw [hd, h3]
  · rw [h2, h3]

/-- Witness of C4, the scenario of the specification: a source that fails after
producing 30 bytes, read into a buffer that already holds 2 bytes, gives 30
and that error, and the buffer then holds 32 bytes. -/
theorem C4_readData_failure_witness :
    (streamReader 9 true (error.failure 7)).Contract ∧
    (streamReader 9 true (error.failure 7)).Exhausts List.length ∧
    (List.replicate 30 (3 : UInt8)).length < 31 ∧
    (∃ b' n e s' front last,
      Buffer.ReadData (streamReader 9 true (error.failure 7)).recorded 31
          ⟨⟨[1, 2], List.replicate 62 0⟩⟩ (List.replicate 30 3, [])
        = Outcome.ret b' n e (s', front ++ [last]) ∧
      ∀ err, last.err = some err → err ≠ error.EOF →
        e = some err ∧ n = ((delivered (front ++ [last])).length : Int) ∧
        b'.ByteBuffer.elems
          = (⟨⟨[1, 2], List.replicate 62 0⟩⟩ : Buffer).ByteBuffer.elems
            ++ delivered (front ++ [last]) ∧
        (b'.Len : Int) = (Buffer.Len ⟨⟨[1, 2], List.replicate 62 0⟩⟩ : Int) + n) ∧
    Buffer.ReadData (streamReader 9 true (error.failure 7)) 31
        ⟨⟨[1, 2], List.replicate 62 0⟩⟩ (List.replicate 30 3)
      = Outcome.ret ⟨⟨[1, 2] ++ List.replicate 30 3, List.replicate 32 0⟩⟩ 30
          (some (error.failure 7)) [] ∧
    Buffer.Len ⟨⟨[1, 2] ++ List.replicate 30 3, List.replicate 32 0⟩⟩ = 2 + 30 :=
  ⟨streamReader_contract 9 true (error.failure 7),
    streamReader_exhausts 9 true (error.failure 7), by decide,
    C4_readData_failure (streamReader 9 true (error.failure 7)) List.length
      (streamReader_contract 9 true (error.failure 7))
      (streamReader_exhausts 9 true (error.failure 7))
      ⟨⟨[1, 2], List.replicate 62 0⟩⟩ (List.replicate 30 3) 31 (by decide),
    rfl, rfl⟩

/-- C7. `ReadData` returns when, and only when, the source reports a non-nil
error: for a source that does so after finitely many calls the run ends, every
call before the last returned a nil error, the last one a non-nil error, and
the bytes delivered by all these calls, the last included, follow the old
content and make up the count returned. -/
theorem C7_readData_returns_at_first_error {σ : Type} (r : Reader σ) (rank : σ → Nat)
    (hc : r.Contract) (hx : r.Exhausts rank) (b : Buffer) (s : σ) (fuel : Nat)
    (hfuel : rank s < fuel) :
    ∃ b' n e s' front last err,
      b.ReadData r.recorded fuel (s, []) = Outcome.ret b' n e (s', front ++ [last]) ∧
      (∀ c ∈ front, c.err = none) ∧ last.err = some err ∧
      b'.ByteBuffer.elems = b.ByteBuffer.elems ++ delivered (front ++ [last]) ∧
      n = ((delivered (front ++ [last])).length : Int) ∧
      n = total (front ++ [last]) := by
  obtain ⟨b', n, e, s', calls, h, hf⟩ := ReadData_total r hc rank hx fuel b s hfuel
  obtain ⟨h1, _, h3, _⟩ := entry_facts b _ b' n e calls hf
  have hd := delivered_length calls hf.conform
  obtain ⟨front, last, err, hs1, hs2, hs3, _⟩ := hf.shape
  subst hs1
  exact ⟨b', n, e, s', front, last, err, h, hs2, hs3, h1, by rw [hd, h3], h3⟩

/-- Witness of C7: a three-byte stream delivered in two chunks, then `io.EOF`. -/
theorem C7_readData_returns_at_first_error_witness :
    (streamReader 1 false error.EOF).Contract ∧
    (streamReader 1 false error.EOF).Exhausts List.length ∧
    List.length ([1, 2, 3] : List UInt8) < 4 ∧
    ∃ b' n e s' front last err,
      Buffer.ReadData (streamReader 1 false error.EOF).recorded 4 ⟨⟨[9], []⟩⟩ ([1, 2, 3], [])
        = Outcome.ret b' n e (s', front ++ [last]) ∧
      (∀ c ∈ front, c.err = none) ∧ last.err = some err ∧
      b'.ByteBuffer.elems
        = (⟨⟨[9], []⟩⟩ : Buffer).ByteBuffer.elems ++ delivered (front ++ [last]) ∧
      n = ((delivered (front ++ [last])).length : Int) ∧
      n = total (front ++ [last]) :=
  ⟨streamReader_contract 1 false error.EOF, streamReader_exhausts 1 false error.EOF,
    by decide,
    C7_readData_returns_at_first_error (streamReader 1 false error.EOF) List.length
      (streamReader_contract 1 false error.EOF) (streamReader_exhausts 1 false error.EOF)
      ⟨⟨[9], []⟩⟩ [1, 2, 3] 4 (by decide)⟩

/-- C8. Capacity-0 bootstrap: on a Buffer of capacity 0 `ReadData` enters its
loop with a storage of 64 zero bytes, does not panic and returns; the first
region it offers the source is those 64 bytes, and when the source delivers
fewer than 64 bytes in all, the capacity afterwards is exactly 64. -/
theorem C8_readData_capacity_zero_bootstrap {σ : Type} (r : Reader σ) (rank : σ → Nat)
    (hc : r.Contract) (hx : r.Exhausts rank) (b : Buffer) (hcap : cap b.ByteBuffer = 0)
    (s : σ) (fuel : Nat) (hfuel : rank s < fuel) :
    (ReadData.enter b s).initBuffer = make 64 ∧
    (ReadData.enter b s).bufferMaxCap = 64 ∧
    ∃ b' n e s' calls,
      b.ReadData r.recorded fuel (s, []) = Outcome.ret b' n e (s', calls) ∧
      (∃ c rest, calls = c :: rest ∧ c.offered = 64) ∧
      ((delivered calls).length < 64 → cap b'.ByteBuffer = 64) := by
  have hstart : startCap b = 64 := by simp only [startCap, hcap, if_true]
  have hlen0 : b.Len = 0 := by
    simp only [cap] at hcap
    simp only [Buffer.Len, len]; omega
  refine ⟨by simp only [ReadData.enter, hcap, if_true],
    by simp only [ReadData.enter, hcap, if_true], ?_⟩
  obtain ⟨b', n, e, s', calls, h, hf⟩ := ReadData_total r hc rank hx fuel b s hfuel
  obtain ⟨h1, _, _, k, hk, hk2⟩ := entry_facts b _ b' n e calls hf
  refine ⟨b', n, e, s', calls, h, ?_, ?_⟩
  · obtain ⟨c, rest, hcalls, hoff⟩ := hf.first
    refine ⟨c, rest, hcalls, ?_⟩
    obtain ⟨hin, hpos, hcp, _, _⟩ := enter_spec b (s, ([] : List Call))
    obtain ⟨hr, _⟩ := region_length _ hin
    obtain ⟨_, _, _, _, _, hg⟩ := grow_spec _ hin
    have hl : (len b.ByteBuffer : Int) = 0 := by
      have : len b.ByteBuffer = 0 := hlen0
      omega
    rw [hpos, hl] at hr
    rw [hpos, hl, hcp, hstart] at hg
    rw [hoff]
    omega
  · intro hlt
    rw [hstart] at hk
    have hlen : b'.Len = (delivered calls).length := by
      have : b.ByteBuffer.elems.length = 0 := hlen0
      simp only [Buffer.Len, len, h1, List.length_append, this, zero_add]
    rcases Nat.eq_zero_or_pos k with hz | hp
    · rw [hk, hz]; rfl
    · rcases hk2 with hk0 | hk1
      · omega
      · exfalso
        have h4 : 2 ^ 1 ≤ 2 ^ k := Nat.pow_le_pow_right (by decide) hp
        rw [pow_one] at h4
        have h5 : 64 * 2 ≤ 64 * 2 ^ k := Nat.mul_le_mul_left 64 h4
        omega

/-- Witness of C8: the zero-value Buffer and a three-byte stream. -/
theorem C8_readData_capacity_zero_bootstrap_witness :
    (streamReader 1 false error.EOF).Contract ∧
    (streamReader 1 false error.EOF).Exhausts List.length ∧
    cap (⟨⟨[], []⟩⟩ : Buffer).ByteBuffer = 0 ∧
    List.length ([1, 2, 3] : List UInt8) < 4 ∧
    ((ReadData.enter ⟨⟨[], []⟩⟩ ([1, 2, 3] : List UInt8)).initBuffer = make 64 ∧
    (ReadData.enter ⟨⟨[], []⟩⟩ ([1, 2, 3] : List UInt8)).bufferMaxCap = 64 ∧
    ∃ b' n e s' calls,
      Buffer.ReadData (streamReader 1 false error.EOF).recorded 4 ⟨⟨[], []⟩⟩ ([1, 2, 3], [])
        = Outcome.ret b' n e (s', calls) ∧
      (∃ c rest, calls = c :: rest ∧ c.offered = 64) ∧
      ((delivered calls).length < 64 → cap b'.ByteBuffer = 64)) ∧
    Buffer.ReadData (streamReader 1 false error.EOF) 4 ⟨⟨[], []⟩⟩ [1, 2, 3]
      = Outcome.ret ⟨⟨[1, 2, 3], List.replicate 61 0⟩⟩ 3 none [] :=
  ⟨streamReader_contract 1 false error.EOF, streamReader_exhausts 1 false error.EOF,
    rfl, by decide,
    C8_readData_capacity_zero_bootstrap (streamReader 1 false error.EOF) List.length
      (streamReader_contract 1 false error.EOF) (streamReader_exhausts 1 false error.EOF)
      ⟨⟨[], []⟩⟩ rfl [1, 2, 3] 4 (by decide),
    rfl⟩

/-- C9. Power-of-two growth: for a terminating source `ReadData` returns with a
capacity that is the starting capacity (the buffer's own, or 64 when it has
none) times a power of two, hence not smaller than the capacity before the
call. -/
theorem C9_readData_capacity_power_of_two {σ : Type} (r : Reader σ) (rank : σ → Nat)
    (hc : r.Contract) (hx : r.Exhausts rank) (b : Buffer) (s : σ) (fuel : Nat)
    (hfuel : rank s < fuel) :
    ∃ b' n e s',
      b.ReadData r fuel s = Outcome.ret b' n e s' ∧
      (∃ k, cap b'.ByteBuffer = startCap b * 2 ^ k) ∧
      cap b.ByteBuffer ≤ cap b'.ByteBuffer := by
  obtain ⟨b', n, e, s', calls, h, hf⟩ := ReadData_total_plain r hc rank hx fuel b s hfuel
  obtain ⟨_, _, _, k, hk, _⟩ := entry_facts b _ b' n e calls hf
  refine ⟨b', n, e, s', h, ⟨k, hk⟩, ?_⟩
  have h1 : cap b.ByteBuffer ≤ startCap b := by
    unfold startCap
    split_ifs with h0
    · omega
    · exact le_refl _
  have h2 : 1 ≤ 2 ^ k := Nat.one_le_two_pow
  have h3 : startCap b ≤ startCap b * 2 ^ k := Nat.le_mul_of_pos_right _ h2
  omega

/-- Witness of C9: a buffer of capacity 1 that holds one byte, and a three-byte
stream; the capacity afterwards is 8. -/
theorem C9_readData_capacity_power_of_two_witness :
    (streamReader 1 false error.EOF).Contract ∧
    (streamReader 1 false error.EOF).Exhausts List.length ∧
    List.length ([1, 2, 3] : List UInt8) < 4 ∧
    (∃ b' n e s',
      Buffer.ReadData (streamReader 1 false error.EOF) 4 ⟨⟨[9], []⟩⟩ [1, 2, 3]
        = Outcome.ret b' n e s' ∧
      (∃ k, cap b'.ByteBuffer = startCap ⟨⟨[9], []⟩⟩ * 2 ^ k) ∧
      cap (⟨⟨[9], []⟩⟩ : Buffer).ByteBuffer ≤ cap b'.ByteBuffer) ∧
    Buffer.ReadData (streamReader 1 false error.EOF) 4 ⟨⟨[9], []⟩⟩ [1, 2, 3]
      = Outcome.ret ⟨⟨[9, 1, 2, 3], [0, 0, 0, 0]⟩⟩ 3 none [] :=
  ⟨streamReader_contract 1 false error.EOF, streamReader_exhausts 1 false error.EOF,
    by decide,
    C9_readData_capacity_power_of_two (streamReader 1 false error.EOF) List.length
      (streamReader_contract 1 false error.EOF) (streamReader_exhausts 1 false error.EOF)
      ⟨⟨[9], []⟩⟩ [1, 2, 3] 4 (by decide),
    rfl⟩

/-- C10. Positions stay in range: for a source that obeys the reader contract the
loop invariant (`initBuffer` is a full slice of `bufferMaxCap` bytes and
`0 <= bufferCurrentLen <= bufferMaxCap`) holds when the loop is entered and
after every iteration that continues, no iteration that starts with it
panics on a slice expression, so no run of `ReadData` panics, and the buffer
stored on return has length at most its capacity. -/
theorem C10_readData_positions_in_range {σ : Type} (r : Reader σ) (hc : r.Contract)
    (b : Buffer) (s : σ) :
    ReadData.InRange (ReadData.enter b s) ∧
    (∀ (bufferInitLen : Int) (st : ReadState σ), ReadData.InRange st →
      ReadData.body r bufferInitLen st ≠ Step.panic ∧
      ∀ st', ReadData.body r bufferInitLen st = Step.next st' → ReadData.InRange st') ∧
    (∀ fuel, b.ReadData r fuel s ≠ Outcome.panic) ∧
    (∀ fuel b' n e s', b.ReadData r fuel s = Outcome.ret b' n e s' →
      len b'.ByteBuffer ≤ cap b'.ByteBuffer) :=
  ⟨(enter_spec b s).1, fun bufferInitLen st h => body_safe r hc bufferInitLen st h,
    fun fuel => ReadData_no_panic r hc fuel b s,
    fun _ _ _ _ _ _ => Nat.le_add_right _ _⟩

/-- Witness of C10: the stream source obeys the reader contract. -/
theorem C10_readData_positions_in_range_witness :
    (streamReader 1 false error.EOF).Contract ∧
    (ReadData.InRange (ReadData.enter ⟨⟨[9], []⟩⟩ ([1, 2, 3] : List UInt8)) ∧
    (∀ (bufferInitLen : Int) (st : ReadState (List UInt8)), ReadData.InRange st →
      ReadData.body (streamReader 1 false error.EOF) bufferInitLen st ≠ Step.panic ∧
      ∀ st', ReadData.body (streamReader 1 false error.EOF) bufferInitLen st = Step.next st' →
        ReadData.InRange st') ∧
    (∀ fuel, Buffer.ReadData (streamReader 1 false error.EOF) fuel ⟨⟨[9], []⟩⟩ [1, 2, 3]
      ≠ Outcome.panic) ∧
    (∀ fuel b' n e s',
      Buffer.ReadData (streamReader 1 false error.EOF) fuel ⟨⟨[9], []⟩⟩ [1, 2, 3]
        = Outcome.ret b' n e s' →
      len b'.ByteBuffer ≤ cap b'.ByteBuffer)) :=
  ⟨streamReader_contract 1 false error.EOF,
    C10_readData_positions_in_range (streamReader 1 false error.EOF)
      (streamReader_contract 1 false error.EOF) ⟨⟨[9], []⟩⟩ [1, 2, 3]⟩

/-! ## Further properties of Write and ReadData -/

/-- C11. A zero-length write is a successful no-op: `Write` with an empty (or nil)
slice returns `(0, nil)` and leaves the buffer, its content and its length as
they were. -/
theorem C11_write_empty_is_noop (slack : Nat → Nat → Nat) (b : Buffer) :
    b.Write slack [] = (b, 0, none) ∧
    (b.Write slack []).1.ByteBuffer.elems = b.ByteBuffer.elems ∧
    (b.Write slack []).1.Len = b.Len := by
  have h : b.Write slack [] = (b, 0, none) := by
    simp [Buffer.Write, append]
  rw [h]
  exact ⟨rfl, rfl, rfl⟩

/-- C15. `ReadData` never offers the source an empty region: for a source that
obeys the reader contract the loop invariant holds on entry, every iteration
that starts with it makes exactly one call of `Read`, on a region of at least
one byte, and keeps the invariant when it continues; so every call made by a
run that returns was offered at least one byte. -/
theorem C15_readData_region_never_empty {σ : Type} (r : Reader σ) (hc : r.Contract)
    (b : Buffer) (s : σ) :
    ReadData.InRange (ReadData.enter b (s, ([] : List Call))) ∧
    (∀ (bufferInitLen : Int) (st : ReadState (σ × List Call)), ReadData.InRange st →
      (∃ st' c, ReadData.body r.recorded bufferInitLen st = Step.next st' ∧
        st'.src.2 = st.src.2 ++ [c] ∧ 1 ≤ c.offered ∧ ReadData.InRange st') ∨
      (∃ b' n e s' c, ReadData.body r.recorded bufferInitLen st
          = Step.ret b' n e (s', st.src.2 ++ [c]) ∧ 1 ≤ c.offered)) ∧
    (∀ fuel b' n e s' calls,
      b.ReadData r.recorded fuel (s, []) = Outcome.ret b' n e (s', calls) →
      ∀ c ∈ calls, 1 ≤ c.offered) := by
  refine ⟨(enter_spec b _).1, ?_, ?_⟩
  · intro bufferInitLen st h
    have hb := body_eq r.recorded (recorded_contract r hc) bufferInitLen st h
    have hlog := recorded_log r st
    have hoff := (call_conform r.recorded (recorded_contract r hc) st h).1
    cases hE : (ReadData.answer r.recorded st).err with
    | none =>
      simp only [hE] at hb
      exact Or.inl ⟨_, ReadData.call r.recorded st, hb, hlog, hoff,
        advance_inRange r.recorded (recorded_contract r hc) st h⟩
    | some err =>
      simp only [hE] at hb
      have hnext : (ReadData.answer r.recorded st).next
          = ((ReadData.answer r.recorded st).next.1,
              st.src.2 ++ [ReadData.call r.recorded st]) := Prod.ext rfl hlog
      exact Or.inr ⟨_, _, _, _, _, hb.trans (congrArg (Step.ret _ _ _) hnext), hoff⟩
  · intro fuel b' n e s' calls hret c hcm
    rcases ReadData_safe r hc fuel b s with h | ⟨b1, n1, e1, s1, calls1, h, hf⟩
    · rw [h] at hret; exact Outcome.noConfusion hret
    · rw [h] at hret
      injection hret with _ _ _ hsrc
      injection hsrc with _ hcalls
      rw [← hcalls] at hcm
      exact (hf.conform c hcm).1

/-- Witness of C15: the stream source obeys the reader contract. -/
theorem C15_readData_region_never_empty_witness :
    (streamReader 1 false error.EOF).Contract ∧
    (ReadData.InRange (ReadData.enter ⟨⟨[9], []⟩⟩
      (([1, 2, 3] : List UInt8), ([] : List Call))) ∧
    (∀ (bufferInitLen : Int) (st : ReadState (List UInt8 × List Call)),
      ReadData.InRange st →
      (∃ st' c, ReadData.body (streamReader 1 false error.EOF).recorded bufferInitLen st
          = Step.next st' ∧
        st'.src.2 = st.src.2 ++ [c] ∧ 1 ≤ c.offered ∧ ReadData.InRange st') ∨
      (∃ b' n e s' c, ReadData.body (streamReader 1 false error.EOF).recorded bufferInitLen st
          = Step.ret b' n e (s', st.src.2 ++ [c]) ∧ 1 ≤ c.offered)) ∧
    (∀ fuel b' n e s' calls,
      Buffer.ReadData (streamReader 1 false error.EOF).recorded fuel ⟨⟨[9], []⟩⟩
          ([1, 2, 3], []) = Outcome.ret b' n e (s', calls) →
      ∀ c ∈ calls, 1 ≤ c.offered)) :=
  ⟨streamReader_contract 1 false error.EOF,
    C15_readData_region_never_empty (streamReader 1 false error.EOF)
      (streamReader_contract 1 false error.EOF) ⟨⟨[9], []⟩⟩ [1, 2, 3]⟩

/-- C16. Growth is bounded by the data: for a terminating source `ReadData`
returns, and when the capacity afterwards exceeds the starting capacity it is
at most twice the final length (half of it is at most the final length); so
the final capacity never exceeds the larger of the starting capacity and twice
the final length. -/
theorem C16_readData_growth_bounded {σ : Type} (r : Reader σ) (rank : σ → Nat)
    (hc : r.Contract) (hx : r.Exhausts rank) (b : Buffer) (s : σ) (fuel : Nat)
    (hfuel : rank s < fuel) :
    ∃ b' n e s',
      b.ReadData r fuel s = Outcome.ret b' n e s' ∧
      (startCap b < cap b'.ByteBuffer →
        cap b'.ByteBuffer ≤ 2 * b'.Len ∧ cap b'.ByteBuffer / 2 ≤ b'.Len) ∧
      cap b'.ByteBuffer ≤ max (startCap b) (2 * b'.Len) := by
  obtain ⟨b', n, e, s', calls, h, hf⟩ := ReadData_total_plain r hc rank hx fuel b s hfuel
  obtain ⟨_, _, _, k, hk, hk2⟩ := entry_facts b _ b' n e calls hf
  refine ⟨b', n, e, s', h, ?_, ?_⟩
  · intro hlt
    rcases hk2 with hk0 | hk1
    · rw [hk0, pow_zero, mul_one] at hk
      omega
    · exact ⟨hk1, by omega⟩
  · rcases hk2 with hk0 | hk1
    · rw [hk0, pow_zero, mul_one] at hk
      exact le_max_of_le_left (le_of_eq hk)
    · exact le_max_of_le_right hk1

/-- Witness of C16: a buffer of capacity 1 that holds one byte grows to capacity 8
for a final length of 4. -/
theorem C16_readData_growth_bounded_witness :
    (streamReader 1 false error.EOF).Contract ∧
    (streamReader 1 false error.EOF).Exhausts List.length ∧
    List.length ([1, 2, 3] : List UInt8) < 4 ∧
    (∃ b' n e s',
      Buffer.ReadData (streamReader 1 false error.EOF) 4 ⟨⟨[9], []⟩⟩ [1, 2, 3]
        = Outcome.ret b' n e s' ∧
      (startCap ⟨⟨[9], []⟩⟩ < cap b'.ByteBuffer →
        cap b'.ByteBuffer ≤ 2 * b'.Len ∧ cap b'.ByteBuffer / 2 ≤ b'.Len) ∧
      cap b'.ByteBuffer ≤ max (startCap ⟨⟨[9], []⟩⟩) (2 * b'.Len)) ∧
    startCap ⟨⟨[9], []⟩⟩
      < cap (⟨⟨[9, 1, 2, 3], [0, 0, 0, 0]⟩⟩ : Buffer).ByteBuffer :=
  ⟨streamReader_contract 1 false error.EOF, streamReader_exhausts 1 false error.EOF,
    by decide,
    C16_readData_growth_bounded (streamReader 1 false error.EOF) List.length
      (streamReader_contract 1 false error.EOF) (streamReader_exhausts 1 false error.EOF)
      ⟨⟨[9], []⟩⟩ [1, 2, 3] 4 (by decide),
    by decide⟩

set_option maxRecDepth 4000 in
/-- C17. The final capacity depends on how the source reports end-of-data: on the
zero-value Buffer, a source that delivers 64 bytes together with `io.EOF` in
one call leaves capacity 64 and length 64, and a source that delivers the same
64 bytes and then `(0, io.EOF)` in a second call leaves capacity 128 and length
64; both runs return `(64, nil)` and the same content. -/
theorem C17_readData_capacity_depends_on_eof :
    ∃ b1 b2 calls1 calls2,
      Buffer.ReadData (streamReader 63 true error.EOF).recorded 2 ⟨⟨[], []⟩⟩
          (List.replicate 64 7, []) = Outcome.ret b1 64 none ([], calls1) ∧
      Buffer.ReadData (streamReader 63 false error.EOF).recorded 2 ⟨⟨[], []⟩⟩
          (List.replicate 64 7, []) = Outcome.ret b2 64 none ([], calls2) ∧
      delivered calls1 = List.replicate 64 7 ∧ delivered calls2 = List.replicate 64 7 ∧
      calls1.map Call.n = [64] ∧ calls1.map Call.err = [some error.EOF] ∧
      calls2.map Call.n = [64, 0] ∧ calls2.map Call.err = [none, some error.EOF] ∧
      b1.ByteBuffer.elems = b2.ByteBuffer.elems ∧
      b1.Len = 64 ∧ b2.Len = 64 ∧
      cap b1.ByteBuffer = 64 ∧ cap b2.ByteBuffer = 128 :=
  ⟨⟨⟨List.replicate 64 7, []⟩⟩, ⟨⟨List.replicate 64 7, List.replicate 64 0⟩⟩,
    [⟨64, List.replicate 64 7, 64, some error.EOF⟩],
    [⟨64, List.replicate 64 7, 64, none⟩, ⟨64, List.replicate 64 0, 0, some error.EOF⟩],
    rfl, rfl, rfl, rfl, rfl, rfl, rfl, rfl, rfl, rfl, rfl, rfl, rfl⟩

/-! ## Reset and the Pool -/

/-- C14. `Reset` keeps capacity and clears length: afterwards the Buffer has no
content, `Len()` is 0 and the capacity is the capacity before the call. -/
theorem C14_reset_keeps_capacity (b : Buffer) :
    b.Reset.ByteBuffer.elems = [] ∧ b.Reset.Len = 0 ∧
    cap b.Reset.ByteBuffer = cap b.ByteBuffer := by
  simp [Buffer.Reset, Buffer.Len, len, cap]

theorem firstFrom_min (q : Nat → Bool) :
    ∀ (n start last : Nat), min start last ≤ firstFrom q n start last
  | 0, start, last => Nat.min_le_right start last
  | n + 1, start, last => by
    unfold firstFrom
    split_ifs
    · exact Nat.min_le_left start last
    · have h := firstFrom_min q n (start + 1) last
      have h1 : min start last ≤ min (start + 1) last := by
        simp only [Nat.min_def]
        split_ifs <;> omega
      exact le_trans h1 h

theorem firstFrom_mono (p q : Nat → Bool) (hpq : ∀ i, q i = true → p i = true) :
    ∀ (n start last : Nat), start + n ≤ last + 1 →
      firstFrom p n start last ≤ firstFrom q n start last
  | 0, _, _, _ => le_refl _
  | n + 1, start, last, h => by
    unfold firstFrom
    by_cases hq : q start = true
    · rw [if_pos hq, if_pos (hpq start hq)]
    · rw [if_neg hq]
      by_cases hp : p start = true
      · rw [if_pos hp]
        have h1 := firstFrom_min q n (start + 1) last
        have h2 : start ≤ min (start + 1) last := by
          simp only [Nat.min_def]
          split_ifs <;> omega
        exact le_trans h2 h1
      · rw [if_neg hp]
        exact firstFrom_mono p q hpq n (start + 1) last (by omega)

theorem coverIndex_mono (calls : List Nat) (pd pm : Nat) (h : pd ≤ pm) :
    coverIndex calls pd ≤ coverIndex calls pm := by
  unfold coverIndex
  apply firstFrom_mono
  · intro i hi
    simp only [decide_eq_true_eq] at hi ⊢
    exact le_trans (Nat.mul_le_mul_right _ h) hi
  · omega

theorem calibrate_sizes (cfg : Config) (hb : Monotone cfg.boundary)
    (hp : cfg.defaultPct ≤ cfg.maxPct) (p : Pool) (h : p.defaultSize ≤ p.maxSize) :
    (p.calibrate cfg).defaultSize ≤ (p.calibrate cfg).maxSize := by
  unfold Pool.calibrate
  split_ifs
  · exact h
  · exact h
  · exact hb (coverIndex_mono p.calls _ _ hp)

theorem calibrate_cache (cfg : Config) (p : Pool) :
    (p.calibrate cfg).SyncPool = p.SyncPool := by
  unfold Pool.calibrate
  split_ifs <;> rfl

theorem record_sizes (cfg : Config) (hb : Monotone cfg.boundary)
    (hp : cfg.defaultPct ≤ cfg.maxPct) (p : Pool) (b : Buffer)
    (h : p.defaultSize ≤ p.maxSize) :
    (p.record cfg b).defaultSize ≤ (p.record cfg b).maxSize := by
  unfold Pool.record
  simp only
  split_ifs
  · exact calibrate_sizes cfg hb hp _ h
  · exact h

theorem record_cache (cfg : Config) (p : Pool) (b : Buffer) :
    (p.record cfg b).SyncPool = p.SyncPool := by
  unfold Pool.record
  simp only
  split_ifs
  · rw [calibrate_cache]
  · rfl

theorem put_sizes (cfg : Config) (p : Pool) (b : Buffer) :
    (p.Put cfg b).defaultSize = (p.record cfg b).defaultSize ∧
    (p.Put cfg b).maxSize = (p.record cfg b).maxSize := by
  unfold Pool.Put
  simp only
  split_ifs <;> exact ⟨rfl, rfl⟩

theorem get_sizes (p : Pool) :
    p.Get.2.defaultSize = p.defaultSize ∧ p.Get.2.maxSize = p.maxSize := by
  unfold Pool.Get
  split <;> exact ⟨rfl, rfl⟩

theorem reachable_sizes (cfg : Config) (hb : Monotone cfg.boundary)
    (hp : cfg.defaultPct ≤ cfg.maxPct) (p0 : Pool) (h0 : p0.defaultSize ≤ p0.maxSize)
    (p : Pool) (hr : Pool.Reachable cfg p0 p) : p.defaultSize ≤ p.maxSize := by
  induction hr with
  | start => exact h0
  | put q b _ ih =>
    obtain ⟨h1, h2⟩ := put_sizes cfg q b
    rw [h1, h2]
    exact record_sizes cfg hb hp q b ih
  | get q _ ih =>
    obtain ⟨h1, h2⟩ := get_sizes q
    rw [h1, h2]
    exact ih

theorem demoConfig_monotone : Monotone demoConfig.boundary := by
  intro a b h
  exact Nat.mul_le_mul_left 64 (Nat.pow_le_pow_right (by decide) h)

/-- C12. Pool size invariant: with bucket boundaries that grow with the bucket and
a `maxSize` percentile not below the `defaultSize` percentile, every state
reached by `Put` and `Get` from a state with `defaultSize <= maxSize` (the zero
value of `Pool` is one) has `defaultSize <= maxSize`, and so has the state
after a calibration pass run on it. -/
theorem C12_pool_default_le_max (cfg : Config) (hb : Monotone cfg.boundary)
    (hp : cfg.defaultPct ≤ cfg.maxPct) (p0 : Pool) (h0 : p0.defaultSize ≤ p0.maxSize)
    (p : Pool) (hr : Pool.Reachable cfg p0 p) :
    p.defaultSize ≤ p.maxSize ∧
    (p.calibrate cfg).defaultSize ≤ (p.calibrate cfg).maxSize :=
  ⟨reachable_sizes cfg hb hp p0 h0 p hr,
    calibrate_sizes cfg hb hp p (reachable_sizes cfg hb hp p0 h0 p hr)⟩

theorem reachable_foldl (cfg : Config) (p0 : Pool) :
    ∀ (bs : List Buffer) (p : Pool), Pool.Reachable cfg p0 p →
      Pool.Reachable cfg p0 (bs.foldl (Pool.Put cfg) p)
  | [], _, h => h
  | b :: bs, p, h => reachable_foldl cfg p0 bs (p.Put cfg b) (Pool.Reachable.put p b h)

theorem demoPool_reachable : Pool.Reachable demoConfig (Pool.zero 3) demoPool :=
  reachable_foldl demoConfig (Pool.zero 3) _ _ Pool.Reachable.start

set_option maxRecDepth 4000 in
/-- Witness of C12: the zero-value Pool after five calls of `Put`, the third of
which ran a calibration pass. -/
theorem C12_pool_default_le_max_witness :
    Monotone demoConfig.boundary ∧ demoConfig.defaultPct ≤ demoConfig.maxPct ∧
    (Pool.zero 3).defaultSize ≤ (Pool.zero 3).maxSize ∧
    Pool.Reachable demoConfig (Pool.zero 3) demoPool ∧
    (demoPool.defaultSize ≤ demoPool.maxSize ∧
      (demoPool.calibrate demoConfig).defaultSize
        ≤ (demoPool.calibrate demoConfig).maxSize) ∧
    demoPool.defaultSize = 64 ∧ demoPool.maxSize = 64 :=
  ⟨demoConfig_monotone, by decide, by decide, demoPool_reachable,
    C12_pool_default_le_max demoConfig demoConfig_monotone (by decide) (Pool.zero 3)
      (by decide) demoPool demoPool_reachable,
    rfl, rfl⟩

theorem sum_set_le : ∀ (l : List Nat) (i : Nat), (l.set i (l.getD i 0 + 1)).sum ≤ l.sum + 1
  | [], _ => by simp
  | a :: t, 0 => by simp; omega
  | a :: t, i + 1 => by
    have h := sum_set_le t i
    simp only [List.set_cons_succ, List.getD_cons_succ, List.sum_cons] at h ⊢
    omega

theorem record_maxSize_of_lt (cfg : Config) (p : Pool) (b : Buffer)
    (h : p.callsSinceCalibration + 1 < cfg.threshold) :
    (p.record cfg b).maxSize = p.maxSize := by
  unfold Pool.record
  simp only
  have hs := sum_set_le p.calls (bucketIndex cfg b.Len)
  have hlt : ¬ cfg.threshold
      ≤ (⟨p.calls.set (bucketIndex cfg b.Len) (p.calls.getD (bucketIndex cfg b.Len) 0 + 1),
          p.calibrating, p.defaultSize, p.maxSize, p.SyncPool⟩ : Pool).callsSinceCalibration := by
    simp only [Pool.callsSinceCalibration] at h ⊢
    omega
  rw [if_neg hlt]

set_option maxRecDepth 4000 in
/-- The `maxSize` that `Put` compares with is the one after recording. In a state
reached from the zero-value Pool with `maxSize` 64, the `Put` of the big Buffer
(capacity 256) is the one that triggers calibration; calibration raises
`maxSize` to 256 before the comparison, the Buffer is retained and the next
`Get` returns it. -/
theorem put_compares_with_calibrated_maxSize :
    Pool.Reachable demoConfig (Pool.zero 3) demoPool ∧
    demoPool.maxSize = 64 ∧ cap demoBig.ByteBuffer = 256 ∧
    (demoPool.Put demoConfig demoBig).maxSize = 256 ∧
    (demoPool.Put demoConfig demoBig).SyncPool = demoBig.Reset :: demoPool.SyncPool ∧
    (demoPool.Put demoConfig demoBig).Get.1 = demoBig.Reset :=
  ⟨demoPool_reachable, rfl, rfl, rfl, rfl, rfl⟩

theorem tracked_run_not_mem (cfg : Config) (id : Nat) :
    ∀ (ops : List Op) (t : Tracked), id ∉ t.ids → (∀ b, Op.put id b ∉ ops) →
      some id ∉ Tracked.run cfg t ops
  | [], _, _, _ => by simp [Tracked.run]
  | Op.put id1 b1 :: ops, t, hid, hops => by
    have hne : id ≠ id1 := by
      intro h
      exact hops b1 (by rw [h]; exact List.mem_cons_self _ _)
    have hids : id ∉ (t.Put cfg id1 b1).ids := by
      unfold Tracked.Put
      simp only
      split_ifs
      · intro hm
        rcases List.mem_cons.mp hm with h | h
        · exact hne h
        · exact hid h
      · exact hid
    simp only [Tracked.run]
    exact tracked_run_not_mem cfg id ops _ hids
      (fun b hb => hops b (List.mem_cons_of_mem _ hb))
  | Op.get :: ops, t, hid, hops => by
    have htail : id ∉ t.Get.2.ids := fun hm => hid (List.mem_of_mem_tail hm)
    have hhead : some id ≠ t.Get.1 := by
      intro h
      exact hid (List.mem_of_mem_head? h.symm)
    simp only [Tracked.run, List.mem_cons, not_or]
    exact ⟨hhead, tracked_run_not_mem cfg id ops _ htail
      (fun b hb => hops b (List.mem_cons_of_mem _ hb))⟩

/-- C13. Oversized buffers are discarded. The `maxSize` in effect, the one `Put`
compares with, is the Pool's `maxSize` after recording (the `maxSize` before
the `Put` while the count of calls stays below the threshold). When the
Buffer's capacity is greater, `Put` leaves the cache as it was, and in no later
sequence of operations that does not `Put` the Buffer again does a `Get` hand
it out; when it is not, the Buffer is put on the cache with its length reset
to 0 and its capacity kept, and the next `Get` hands it out. `Get` hands out a
Buffer of the cache, or a new one when the cache is empty. -/
theorem C13_put_discards_oversized (cfg : Config) (p : Pool) (b : Buffer) :
    (p.Put cfg b).maxSize = (p.record cfg b).maxSize ∧
    (p.callsSinceCalibration + 1 < cfg.threshold → (p.Put cfg b).maxSize = p.maxSize) ∧
    ((p.Put cfg b).maxSize < cap b.ByteBuffer → (p.Put cfg b).SyncPool = p.SyncPool) ∧
    (cap b.ByteBuffer ≤ (p.Put cfg b).maxSize →
      (p.Put cfg b).SyncPool = b.Reset :: p.SyncPool ∧ b.Reset.Len = 0 ∧
      cap b.Reset.ByteBuffer = cap b.ByteBuffer) ∧
    (∀ q : Pool, (q.Get.1 ∈ q.SyncPool ∧ q.Get.2.SyncPool = q.SyncPool.tail) ∨
      (q.SyncPool = [] ∧ q.Get.1 = ⟨⟨[], make q.defaultSize⟩⟩ ∧ q.Get.2 = q)) ∧
    (∀ (ids : List Nat) (id : Nat), ids.length = p.SyncPool.length →
      (Tracked.Put cfg ⟨p, ids⟩ id b).pool = p.Put cfg b ∧
      (Tracked.Put cfg ⟨p, ids⟩ id b).ids.length = (p.Put cfg b).SyncPool.length) ∧
    ((p.Put cfg b).maxSize < cap b.ByteBuffer →
      ∀ (ids : List Nat) (id : Nat) (ops : List Op), id ∉ ids →
        (∀ b', Op.put id b' ∉ ops) →
        (Tracked.Put cfg ⟨p, ids⟩ id b).ids = ids ∧
        some id ∉ Tracked.run cfg (Tracked.Put cfg ⟨p, ids⟩ id b) ops) ∧
    (cap b.ByteBuffer ≤ (p.Put cfg b).maxSize →
      ∀ (ids : List Nat) (id : Nat) (ops : List Op),
        Tracked.run cfg (Tracked.Put cfg ⟨p, ids⟩ id b) (Op.get :: ops)
          = some id :: Tracked.run cfg (Tracked.Put cfg ⟨p, ids⟩ id b).Get.2 ops ∧
        ((Tracked.Put cfg ⟨p, ids⟩ id b).pool.Get.1 = b.Reset)) := by
  have hm := (put_sizes cfg p b).2
  have hc := record_cache cfg p b
  have hkeep : cap b.ByteBuffer ≤ (p.record cfg b).maxSize →
      (p.Put cfg b).SyncPool = b.Reset :: p.SyncPool := by
    intro h
    unfold Pool.Put
    simp only
    rw [if_pos h, hc]
  have hdrop : (p.record cfg b).maxSize < cap b.ByteBuffer →
      (p.Put cfg b).SyncPool = p.SyncPool := by
    intro h
    unfold Pool.Put
    simp only
    rw [if_neg (by omega)]
    exact hc
  refine ⟨hm, ?_, ?_, ?_, ?_, ?_, ?_, ?_⟩
  · intro h
    rw [hm]
    exact record_maxSize_of_lt cfg p b h
  · intro h
    rw [hm] at h
    exact hdrop h
  · intro h
    rw [hm] at h
    refine ⟨hkeep h, rfl, ?_⟩
    simp [Buffer.Reset, cap]
  · intro q
    unfold Pool.Get
    cases hq : q.SyncPool with
    | nil => exact Or.inr ⟨rfl, rfl, rfl⟩
    | cons a t => exact Or.inl ⟨List.mem_cons_self a t, rfl⟩
  · intro ids id hlen
    refine ⟨rfl, ?_⟩
    unfold Tracked.Put
    simp only
    by_cases h : cap b.ByteBuffer ≤ (p.record cfg b).maxSize
    · rw [if_pos h, hkeep h, List.length_cons, List.length_cons, hlen]
    · rw [if_neg h, hdrop (by omega), hlen]
  · intro h ids id ops hid hops
    rw [hm] at h
    have hids : (Tracked.Put cfg ⟨p, ids⟩ id b).ids = ids := by
      unfold Tracked.Put
      simp only
      rw [if_neg (by omega)]
    refine ⟨hids, tracked_run_not_mem cfg id ops _ ?_ hops⟩
    rw [hids]; exact hid
  · intro h ids id ops
    rw [hm] at h
    have hids : (Tracked.Put cfg ⟨p, ids⟩ id b).ids = id :: ids := by
      unfold Tracked.Put
      simp only
      rw [if_pos h]
    refine ⟨?_, ?_⟩
    · simp only [Tracked.run, Tracked.Get, hids, List.head?_cons]
    · show (p.Put cfg b).Get.1 = b.Reset
      unfold Pool.Get
      rw [hkeep h]

end poolBuffer
